import Mathlib

/-!
Verification of the scheduling core of the `inference` workflow runtime:
the step-graph layering engine (`flow_coordinator.py`), the parallel step
execution coordinator, and the branching manager
(`branching_manager.py`), shallowly embedded in Lean 4.

Graph nodes are identified by their (string) names, as in the Python
sources where `networkx.DiGraph` nodes are step/data selector strings.
-/

/-- Modelled from the spec: node categories of the execution graph.
The enum `NodeCategory` lives in `compiler/entities.py`, which is not part
of the sources at hand; the spec says nodes are tagged Step (an executable
block) or Data (an input, output, or intermediate value). -/
inductive NodeCategory where
  | STEP_NODE : NodeCategory
  | DATA_NODE : NodeCategory
deriving DecidableEq, Repr

/-- A directed graph as consumed by the flow coordinator: a node list,
an edge list, and a category tag per node (`networkx.DiGraph` with the
node-kind attribute). -/
structure DiGraph where
  nodes : List String
  edges : List (String × String)
  category : String → NodeCategory

/-- `graph.predecessors(n)`: sources of the edges that end in `n`. -/
def DiGraph.predecessors (g : DiGraph) (n : String) : List String :=
  (g.edges.filter (fun e => e.2 = n)).map (fun e => e.1)

/-- `graph.successors(n)`: targets of the edges that start in `n`. -/
def DiGraph.successors (g : DiGraph) (n : String) : List String :=
  (g.edges.filter (fun e => e.1 = n)).map (fun e => e.2)

/-- Modelled from the spec: `get_nodes_of_specific_category`
(`compiler/utils.py`, not among the sources at hand) — "enumerate nodes of
a given category". -/
def get_nodes_of_specific_category (execution_graph : DiGraph)
    (category : NodeCategory) : List String :=
  execution_graph.nodes.filter (fun n => execution_graph.category n = category)

/-- The step nodes of an execution graph. -/
def DiGraph.step_nodes (g : DiGraph) : List String :=
  get_nodes_of_specific_category g NodeCategory.STEP_NODE

/-- The steps-flow graph built by `construct_steps_flow_graph`
(an `nx.DiGraph` without node attributes; node and edge sets). -/
structure FlowGraph where
  nodes : List String
  edges : List (String × String)

/-- `nx.DiGraph.add_node`: a no-op when the node is already present. -/
def FlowGraph.add_node (fg : FlowGraph) (n : String) : FlowGraph :=
  if n ∈ fg.nodes then fg else { fg with nodes := fg.nodes ++ [n] }

/-- `nx.DiGraph.add_edge`: inserts both endpoints, then the edge;
a no-op on an edge already present. -/
def FlowGraph.add_edge (fg : FlowGraph) (u v : String) : FlowGraph :=
  let fg := (fg.add_node u).add_node v
  if (u, v) ∈ fg.edges then fg else { fg with edges := fg.edges ++ [(u, v)] }

/-- Predecessors in the steps-flow graph. -/
def FlowGraph.flow_predecessors (fg : FlowGraph) (n : String) : List String :=
  (fg.edges.filter (fun e => e.2 = n)).map (fun e => e.1)

/-- The body of the `for step_node in step_nodes` loop of
`construct_steps_flow_graph`: wire `step_node` to its predecessors
(a non-step predecessor stands in for the synthetic source), fall back to
the synthetic source when there is no predecessor at all, and wire the
step successors. -/
def process_step_node (g : DiGraph) (step_nodes : List String)
    (super_start_node : String) (fg : FlowGraph) (step_node : String) :
    FlowGraph :=
  let preds := g.predecessors step_node
  let fg := preds.foldl
    (fun fg predecessor =>
      let start_node :=
        if predecessor ∈ step_nodes then predecessor else super_start_node
      fg.add_edge start_node step_node)
    fg
  let fg := if preds.isEmpty then fg.add_edge super_start_node step_node else fg
  (g.successors step_node).foldl
    (fun fg successor =>
      if successor ∈ step_nodes then fg.add_edge step_node successor else fg)
    fg

/-- `construct_steps_flow_graph` from `flow_coordinator.py`. -/
def construct_steps_flow_graph (execution_graph : DiGraph)
    (super_start_node : String) : FlowGraph :=
  let start : FlowGraph := FlowGraph.add_node ⟨[], []⟩ super_start_node
  let step_nodes := execution_graph.step_nodes
  step_nodes.foldl (process_step_node execution_graph step_nodes super_start_node) start

/-- Fuel-indexed longest-path distance. With enough fuel on an acyclic
graph, this satisfies: distance of a node without predecessors is 0,
otherwise 1 + the maximum distance over its predecessors. -/
def max_distance_from_start (fg : FlowGraph) : Nat → String → Nat
  | 0, _ => 0
  | fuel + 1, n =>
    let preds := fg.flow_predecessors n
    if preds.isEmpty then 0
    else (preds.map (max_distance_from_start fg fuel)).foldl max 0 + 1

/-- Modelled from the spec: `assign_max_distances_from_start`
(`compiler/graph_constructor.py`, not among the sources at hand) — "assign
distance 0 to the synthetic source; for every other node, distance = the
maximum, over all of its incoming edges in the step-graph, of (source's
distance + 1)". The node count of the graph bounds every longest path, so
it serves as fuel. -/
def assign_max_distances_from_start (fg : FlowGraph) : String → Nat :=
  max_distance_from_start fg fg.nodes.length

/-- Insert a value into an ascending list, keeping it ascending. -/
def insert_sorted (v : Nat) : List Nat → List Nat
  | [] => [v]
  | x :: xs => if v ≤ x then v :: x :: xs else x :: insert_sorted v xs

/-- Ascending insertion sort (Python's `sorted`). -/
def sort_ascending (l : List Nat) : List Nat :=
  l.foldr insert_sorted []

/-- Modelled from the spec: `group_nodes_by_sorted_key_value`
(`compiler/graph_constructor.py`, not among the sources at hand) — "Group
step nodes by equal distance, ascending, excluding the synthetic source":
group by key value, one group per distinct key value taken in ascending
order. Within a group, nodes keep the graph's node order. -/
def group_nodes_by_sorted_key_value (nodes : List String)
    (excluded_nodes : List String) (key : String → Nat) : List (List String) :=
  let included := nodes.filter (fun n => n ∉ excluded_nodes)
  let sorted_key_values := sort_ascending (included.map key).dedup
  sorted_key_values.map (fun v => included.filter (fun n => key n = v))

/-- The reserved name of the synthetic source node. -/
def super_start_node : String := "<start>"

/-- `establish_execution_order` from `flow_coordinator.py`: build the
steps-flow graph, assign longest-path distances from the synthetic
source, and group the step nodes by distance, ascending. -/
def establish_execution_order (execution_graph : DiGraph) :
    List (List String) :=
  let steps_flow_graph :=
    construct_steps_flow_graph execution_graph super_start_node
  let distance := assign_max_distances_from_start steps_flow_graph
  group_nodes_by_sorted_key_value steps_flow_graph.nodes [super_start_node]
    distance

/-! ## The parallel step execution coordinator -/

/-- State of a `ParallelStepExecutionCoordinator`: the (privately copied)
execution graph, the running discard set, the lazily computed layering and
the forward-only layer pointer. -/
structure ParallelStepExecutionCoordinator where
  execution_graph : DiGraph
  discarded_steps : Finset String
  execution_order : Option (List (List String))
  execution_pointer : Nat

/-- `ParallelStepExecutionCoordinator.init` / `__init__`: snapshot the
graph, empty discard set, no layering computed yet, pointer at 0. -/
def ParallelStepExecutionCoordinator.init (execution_graph : DiGraph) :
    ParallelStepExecutionCoordinator :=
  ⟨execution_graph, ∅, none, 0⟩

/-- The `while self.__execution_pointer < len(self.__execution_order)` loop
of `get_steps_to_execute_next`, run on the layers still ahead of the
pointer. Returns the number of layers consumed and the first non-empty
candidate list, if any: each visited layer is filtered against the discard
set, a fully filtered-out layer is skipped, the first layer with a
survivor is returned. -/
def advance_through_layers (discarded : Finset String) :
    List (List String) → Nat × Option (List String)
  | [] => (0, none)
  | layer :: rest =>
    if (layer.filter (fun e => e ∉ discarded)).isEmpty then
      ((advance_through_layers discarded rest).1 + 1,
        (advance_through_layers discarded rest).2)
    else (1, some (layer.filter (fun e => e ∉ discarded)))

/-- `get_steps_to_execute_next` from `flow_coordinator.py`: on first use
compute the layering and reset the pointer, merge the new discards into
the running discard set, then scan forward for the first layer with a
non-discarded step (consuming every layer visited), returning `none` once
the layers are exhausted. -/
def get_steps_to_execute_next (c : ParallelStepExecutionCoordinator)
    (steps_to_discard : Finset String) :
    ParallelStepExecutionCoordinator × Option (List String) :=
  let order :=
    match c.execution_order with
    | none => establish_execution_order c.execution_graph
    | some o => o
  let pointer :=
    match c.execution_order with
    | none => 0
    | some _ => c.execution_pointer
  let discarded := c.discarded_steps ∪ steps_to_discard
  let scanned := advance_through_layers discarded (order.drop pointer)
  ({ c with
      execution_order := some order
      execution_pointer := pointer + scanned.1
      discarded_steps := discarded },
    scanned.2)

/-- A run of the coordinator: one `get_steps_to_execute_next` call per
element of `args`, threading the state; the trace records the state after
each call together with that call's result. -/
def coordinator_trace (c : ParallelStepExecutionCoordinator) :
    List (Finset String) →
    List (ParallelStepExecutionCoordinator × Option (List String))
  | [] => []
  | d :: ds =>
    let step := get_steps_to_execute_next c d
    step :: coordinator_trace step.1 ds

/-- The results of a run of the coordinator. -/
def coordinator_run (c : ParallelStepExecutionCoordinator)
    (args : List (Finset String)) : List (Option (List String)) :=
  (coordinator_trace c args).map (fun p => p.2)

/-! ## The branching manager -/

/-- Modelled from the spec: `DynamicBatchIndex`
(`dynamic_batches_manager.py`, not among the sources at hand) — "an
immutable, finite ordered sequence of non-negative integers, one per
nesting level, outermost first". -/
def DynamicBatchIndex : Type := List Nat

instance : DecidableEq DynamicBatchIndex := by
  unfold DynamicBatchIndex; infer_instance

/-- A registered branch mask: the Python field holds
`Union[Set[DynamicBatchIndex], bool]`; a `bool` is the non-batch
(scalar) case. -/
inductive Mask where
  | batch (indices : Finset DynamicBatchIndex) : Mask
  | scalar (enabled : Bool) : Mask
deriving DecidableEq

/-- `isinstance(mask, bool)` on a stored mask. -/
def Mask.is_bool : Mask → Bool
  | Mask.batch _ => false
  | Mask.scalar _ => true

/-- State of a `BranchingManager`: the `_masks` dictionary and the
`_batch_compatibility` dictionary, each modelled as a partial map from
branch names. -/
structure BranchingManager where
  masks : String → Option Mask
  batch_compatibility : String → Option Bool

/-- `BranchingManager.__init__`: stores the given masks and derives
`_batch_compatibility` per branch as `not isinstance(mask, bool)`. -/
def BranchingManager.mk_init (masks : String → Option Mask) :
    BranchingManager :=
  ⟨masks, fun branch => (masks branch).map (fun m => !m.is_bool)⟩

/-- `BranchingManager.init`: construction with an empty masks dictionary. -/
def BranchingManager.init : BranchingManager :=
  BranchingManager.mk_init (fun _ => none)

/-- `register_batch_oriented_mask`: fails (raising `ValueError`) when the
branch already has a mask, leaving the state as it was; otherwise records
the batch-oriented mask and batch compatibility. -/
def register_batch_oriented_mask (m : BranchingManager)
    (execution_branch : String) (mask : Finset DynamicBatchIndex) :
    BranchingManager × Except String Unit :=
  if (m.masks execution_branch).isSome then
    (m, Except.error
      ("Attempted to re-register maks for execution branch: " ++
        execution_branch))
  else
    (⟨fun b => if b = execution_branch then some (Mask.batch mask) else m.masks b,
      fun b => if b = execution_branch then some true else m.batch_compatibility b⟩,
      Except.ok ())

/-- `register_non_batch_mask`: same one-shot rule, recording a scalar mask
and non-batch compatibility. -/
def register_non_batch_mask (m : BranchingManager)
    (execution_branch : String) (mask : Bool) :
    BranchingManager × Except String Unit :=
  if (m.masks execution_branch).isSome then
    (m, Except.error
      ("Attempted to re-register maks for execution branch: " ++
        execution_branch))
  else
    (⟨fun b => if b = execution_branch then some (Mask.scalar mask) else m.masks b,
      fun b => if b = execution_branch then some false else m.batch_compatibility b⟩,
      Except.ok ())

/-- `get_mask`: fails (raising `ValueError`) on a branch without a mask,
otherwise returns the stored mask. -/
def get_mask (m : BranchingManager) (execution_branch : String) :
    Except String Mask :=
  match m.masks execution_branch with
  | none => Except.error
      ("Attempted to get mask for not registered execution branch: " ++
        execution_branch)
  | some mask => Except.ok mask

/-- `is_execution_branch_batch_oriented`: fails (raising `ValueError`) on
a branch absent from `_batch_compatibility`, otherwise returns the stored
flag. -/
def is_execution_branch_batch_oriented (m : BranchingManager)
    (execution_branch : String) : Except String Bool :=
  match m.batch_compatibility execution_branch with
  | none => Except.error
      ("Attempted to get information about not registered execution branch: " ++
        execution_branch)
  | some b => Except.ok b

/-- `is_execution_branch_registered`: membership probe on `_masks`. -/
def is_execution_branch_registered (m : BranchingManager)
    (execution_branch : String) : Bool :=
  (m.masks execution_branch).isSome

/-- The `BranchingManager` states reachable from `init()` by successful
registrations. -/
inductive BranchingManager.Reachable : BranchingManager → Prop
  | init : BranchingManager.Reachable BranchingManager.init
  | register_batch (m : BranchingManager) (branch : String)
      (mask : Finset DynamicBatchIndex) (m' : BranchingManager) :
      BranchingManager.Reachable m →
      register_batch_oriented_mask m branch mask = (m', Except.ok ()) →
      BranchingManager.Reachable m'
  | register_non_batch (m : BranchingManager) (branch : String)
      (mask : Bool) (m' : BranchingManager) :
      BranchingManager.Reachable m →
      register_non_batch_mask m branch mask = (m', Except.ok ()) →
      BranchingManager.Reachable m'

/-! ## Branching manager lemmas -/

/-- On every reachable state, `_batch_compatibility` holds exactly the
branches of `_masks`, recording `not isinstance(mask, bool)`. -/
theorem BranchingManager.reachable_batch_compatibility_eq
    (m : BranchingManager) (hm : BranchingManager.Reachable m) :
    ∀ b, m.batch_compatibility b = (m.masks b).map (fun k => !k.is_bool) := by
  induction hm with
  | init => intro b; rfl
  | register_batch m₀ branch mask m' _ hreg ih =>
    intro b
    by_cases h : (m₀.masks branch).isSome
    · simp [register_batch_oriented_mask, h] at hreg
    · simp only [register_batch_oriented_mask, h, if_false, Bool.false_eq_true,
        Prod.mk.injEq] at hreg
      obtain ⟨hm', -⟩ := hreg
      subst hm'
      by_cases hb : b = branch
      · simp [hb, Mask.is_bool]
      · simp [hb, ih b]
  | register_non_batch m₀ branch mask m' _ hreg ih =>
    intro b
    by_cases h : (m₀.masks branch).isSome
    · simp [register_non_batch_mask, h] at hreg
    · simp only [register_non_batch_mask, h, if_false, Bool.false_eq_true,
        Prod.mk.injEq] at hreg
      obtain ⟨hm', -⟩ := hreg
      subst hm'
      by_cases hb : b = branch
      · simp [hb, Mask.is_bool]
      · simp [hb, ih b]

/-- A successful registration (of either kind) leaves a mask stored for
the branch. -/
theorem register_ok_masks_isSome (m m' : BranchingManager) (branch : String)
    (h : (∃ mask, register_batch_oriented_mask m branch mask = (m', Except.ok ())) ∨
      (∃ v, register_non_batch_mask m branch v = (m', Except.ok ()))) :
    (m'.masks branch).isSome = true := by
  rcases h with ⟨mask, hreg⟩ | ⟨v, hreg⟩ <;>
    by_cases hs : (m.masks branch).isSome
  · simp [register_batch_oriented_mask, hs] at hreg
  · simp only [register_batch_oriented_mask, hs, if_false, Bool.false_eq_true,
      Prod.mk.injEq] at hreg
    obtain ⟨hm', -⟩ := hreg
    subst hm'
    simp
  · simp [register_non_batch_mask, hs] at hreg
  · simp only [register_non_batch_mask, hs, if_false, Bool.false_eq_true,
      Prod.mk.injEq] at hreg
    obtain ⟨hm', -⟩ := hreg
    subst hm'
    simp

/-- C8: on every reachable branching-manager state and branch:
a successful `register_*` makes `get_mask` return exactly the registered
value; after a successful registration, a second registration of either
kind fails with the duplicate-registration error; `get_mask` and
`is_execution_branch_batch_oriented` on an unregistered branch fail with
the unknown-branch errors; registration succeeds iff the branch is not
yet registered; and queries succeed iff it is registered. -/
theorem claim_C8_register_query_contract (m : BranchingManager)
    (hm : BranchingManager.Reachable m) (branch : String) :
    (∀ mask m', register_batch_oriented_mask m branch mask = (m', Except.ok ()) →
      get_mask m' branch = Except.ok (Mask.batch mask)) ∧
    (∀ v m', register_non_batch_mask m branch v = (m', Except.ok ()) →
      get_mask m' branch = Except.ok (Mask.scalar v)) ∧
    (∀ m', ((∃ mask, register_batch_oriented_mask m branch mask = (m', Except.ok ())) ∨
        (∃ v, register_non_batch_mask m branch v = (m', Except.ok ()))) →
      ∀ mask2 v2,
        (register_batch_oriented_mask m' branch mask2).2 =
          Except.error ("Attempted to re-register maks for execution branch: " ++ branch) ∧
        (register_non_batch_mask m' branch v2).2 =
          Except.error ("Attempted to re-register maks for execution branch: " ++ branch)) ∧
    (is_execution_branch_registered m branch = false →
      get_mask m branch =
        Except.error ("Attempted to get mask for not registered execution branch: " ++ branch) ∧
      is_execution_branch_batch_oriented m branch =
        Except.error
          ("Attempted to get information about not registered execution branch: " ++ branch)) ∧
    (∀ mask, (register_batch_oriented_mask m branch mask).2 = Except.ok () ↔
      is_execution_branch_registered m branch = false) ∧
    (∀ v, (register_non_batch_mask m branch v).2 = Except.ok () ↔
      is_execution_branch_registered m branch = false) ∧
    ((∃ k, get_mask m branch = Except.ok k) ↔
      is_execution_branch_registered m branch = true) ∧
    ((∃ r, is_execution_branch_batch_oriented m branch = Except.ok r) ↔
      is_execution_branch_registered m branch = true) := by
  have hcompat := BranchingManager.reachable_batch_compatibility_eq m hm
  refine ⟨?_, ?_, ?_, ?_, ?_, ?_, ?_, ?_⟩
  · intro mask m' hreg
    by_cases hs : (m.masks branch).isSome
    · simp [register_batch_oriented_mask, hs] at hreg
    · simp only [register_batch_oriented_mask, hs, if_false, Bool.false_eq_true,
        Prod.mk.injEq] at hreg
      obtain ⟨hm', -⟩ := hreg
      subst hm'
      simp [get_mask]
  · intro v m' hreg
    by_cases hs : (m.masks branch).isSome
    · simp [register_non_batch_mask, hs] at hreg
    · simp only [register_non_batch_mask, hs, if_false, Bool.false_eq_true,
        Prod.mk.injEq] at hreg
      obtain ⟨hm', -⟩ := hreg
      subst hm'
      simp [get_mask]
  · intro m' hok mask2 v2
    have hsome := register_ok_masks_isSome m m' branch hok
    constructor
    · simp [register_batch_oriented_mask, hsome]
    · simp [register_non_batch_mask, hsome]
  · intro hreg
    have hnone : m.masks branch = none := by
      simpa [is_execution_branch_registered, Option.isSome_iff_exists] using hreg
    constructor
    · simp [get_mask, hnone]
    · simp [is_execution_branch_batch_oriented, hcompat branch, hnone]
  · intro mask
    by_cases hs : (m.masks branch).isSome
    · simp [register_batch_oriented_mask, is_execution_branch_registered, hs]
    · simp [register_batch_oriented_mask, is_execution_branch_registered, hs]
  · intro v
    by_cases hs : (m.masks branch).isSome
    · simp [register_non_batch_mask, is_execution_branch_registered, hs]
    · simp [register_non_batch_mask, is_execution_branch_registered, hs]
  · cases hmb : m.masks branch with
    | none => simp [get_mask, is_execution_branch_registered, hmb]
    | some k => simp [get_mask, is_execution_branch_registered, hmb]
  · cases hmb : m.masks branch with
    | none => simp [is_execution_branch_batch_oriented, is_execution_branch_registered,
        hcompat branch, hmb]
    | some k => simp [is_execution_branch_batch_oriented, is_execution_branch_registered,
        hcompat branch, hmb]

/-- The §8 scenario mask: `BatchSubset({(0,), (2,)})`. -/
def example_batch_mask : Finset DynamicBatchIndex :=
  {([0] : List Nat), ([2] : List Nat)}

/-- The manager obtained from `init()` by registering the scenario mask
for branch `cond1`. -/
def example_manager : BranchingManager :=
  (register_batch_oriented_mask BranchingManager.init "cond1" example_batch_mask).1

/-- C8 witness: from `init()` the registration contract instantiates to
the scenario registration of `cond1`, whose `get_mask` returns exactly the
registered batch mask. -/
theorem claim_C8_witness :
    BranchingManager.Reachable BranchingManager.init ∧
    get_mask example_manager "cond1" = Except.ok (Mask.batch example_batch_mask) :=
  ⟨BranchingManager.Reachable.init,
    (claim_C8_register_query_contract BranchingManager.init
      BranchingManager.Reachable.init "cond1").1 example_batch_mask
      example_manager rfl⟩

/-- C9: on every reachable branching-manager state and branch:
`is_execution_branch_batch_oriented` answers `true` exactly when the
stored mask is the batch-subset case; `register_batch_oriented_mask`
stores the batch-subset case and `register_non_batch_mask` the scalar
case; and `is_execution_branch_registered` (a total function — it never
fails) answers exactly whether a mask is stored for the branch. -/
theorem claim_C9_batch_orientation (m : BranchingManager)
    (hm : BranchingManager.Reachable m) (branch : String) :
    (∀ mask, m.masks branch = some mask →
      (is_execution_branch_batch_oriented m branch = Except.ok true ↔
        ∃ s, mask = Mask.batch s)) ∧
    (∀ m₀ mask m', register_batch_oriented_mask m₀ branch mask = (m', Except.ok ()) →
      m'.masks branch = some (Mask.batch mask)) ∧
    (∀ m₀ v m', register_non_batch_mask m₀ branch v = (m', Except.ok ()) →
      m'.masks branch = some (Mask.scalar v)) ∧
    (is_execution_branch_registered m branch = true ↔
      ∃ k, m.masks branch = some k) := by
  have hcompat := BranchingManager.reachable_batch_compatibility_eq m hm
  refine ⟨?_, ?_, ?_, ?_⟩
  · intro mask hmask
    have : is_execution_branch_batch_oriented m branch = Except.ok (!mask.is_bool) := by
      simp [is_execution_branch_batch_oriented, hcompat branch, hmask]
    rw [this]
    cases mask with
    | batch s => simp [Mask.is_bool]
    | scalar v => simp [Mask.is_bool]
  · intro m₀ mask m' hreg
    by_cases hs : (m₀.masks branch).isSome
    · simp [register_batch_oriented_mask, hs] at hreg
    · simp only [register_batch_oriented_mask, hs, if_false, Bool.false_eq_true,
        Prod.mk.injEq] at hreg
      obtain ⟨hm', -⟩ := hreg
      subst hm'
      simp
  · intro m₀ v m' hreg
    by_cases hs : (m₀.masks branch).isSome
    · simp [register_non_batch_mask, hs] at hreg
    · simp only [register_non_batch_mask, hs, if_false, Bool.false_eq_true,
        Prod.mk.injEq] at hreg
      obtain ⟨hm', -⟩ := hreg
      subst hm'
      simp
  · simp [is_execution_branch_registered, Option.isSome_iff_exists]

/-- C9 witness: on the scenario manager, `is_execution_branch_batch_oriented`
of `cond1` is `true` because the stored mask is the batch-subset case. -/
theorem claim_C9_witness :
    BranchingManager.Reachable example_manager ∧
    (is_execution_branch_batch_oriented example_manager "cond1" = Except.ok true ↔
      ∃ s, Mask.batch example_batch_mask = Mask.batch s) :=
  ⟨BranchingManager.Reachable.register_batch BranchingManager.init "cond1"
      example_batch_mask example_manager BranchingManager.Reachable.init rfl,
    (claim_C9_batch_orientation example_manager
      (BranchingManager.Reachable.register_batch BranchingManager.init "cond1"
        example_batch_mask example_manager BranchingManager.Reachable.init rfl)
      "cond1").1 (Mask.batch example_batch_mask) rfl⟩

/-- C10: a failed registration is atomic — when either `register_*`
fails, the resulting manager answers every `get_mask`,
`is_execution_branch_batch_oriented` and `is_execution_branch_registered`
query, on every branch, exactly as the manager before the failed call. -/
theorem claim_C10_failed_registration_atomic (m : BranchingManager)
    (branch : String) :
    (∀ mask err,
      (register_batch_oriented_mask m branch mask).2 = Except.error err →
      ∀ b,
        get_mask (register_batch_oriented_mask m branch mask).1 b = get_mask m b ∧
        is_execution_branch_batch_oriented
            (register_batch_oriented_mask m branch mask).1 b =
          is_execution_branch_batch_oriented m b ∧
        is_execution_branch_registered
            (register_batch_oriented_mask m branch mask).1 b =
          is_execution_branch_registered m b) ∧
    (∀ v err,
      (register_non_batch_mask m branch v).2 = Except.error err →
      ∀ b,
        get_mask (register_non_batch_mask m branch v).1 b = get_mask m b ∧
        is_execution_branch_batch_oriented
            (register_non_batch_mask m branch v).1 b =
          is_execution_branch_batch_oriented m b ∧
        is_execution_branch_registered
            (register_non_batch_mask m branch v).1 b =
          is_execution_branch_registered m b) := by
  constructor
  · intro mask err herr b
    by_cases hs : (m.masks branch).isSome
    · simp [register_batch_oriented_mask, hs]
    · simp [register_batch_oriented_mask, hs] at herr
  · intro v err herr b
    by_cases hs : (m.masks branch).isSome
    · simp [register_non_batch_mask, hs]
    · simp [register_non_batch_mask, hs] at herr

/-- C10 witness: re-registering `cond1` on the scenario manager fails, and
the failed call leaves every query on `cond1` unchanged. -/
theorem claim_C10_witness :
    (register_batch_oriented_mask example_manager "cond1" ∅).2 =
      Except.error ("Attempted to re-register maks for execution branch: " ++ "cond1") ∧
    get_mask (register_batch_oriented_mask example_manager "cond1" ∅).1 "cond1" =
      get_mask example_manager "cond1" :=
  ⟨rfl,
    ((claim_C10_failed_registration_atomic example_manager "cond1").1 ∅
      ("Attempted to re-register maks for execution branch: " ++ "cond1") rfl
      "cond1").1⟩

/-! ## Coordinator lemmas -/

/-- The layering the next call will scan: the cached one, or the one
computed on first use. -/
def resolved_order (c : ParallelStepExecutionCoordinator) : List (List String) :=
  match c.execution_order with
  | none => establish_execution_order c.execution_graph
  | some o => o

/-- The pointer the next call will scan from: reset to 0 on first use. -/
def resolved_pointer (c : ParallelStepExecutionCoordinator) : Nat :=
  match c.execution_order with
  | none => 0
  | some _ => c.execution_pointer

/-- `get_steps_to_execute_next`, written through `resolved_order`,
`resolved_pointer` and the scanning loop. -/
theorem get_steps_to_execute_next_eq (c : ParallelStepExecutionCoordinator)
    (s : Finset String) :
    get_steps_to_execute_next c s =
      ({ execution_graph := c.execution_graph
         discarded_steps := c.discarded_steps ∪ s
         execution_order := some (resolved_order c)
         execution_pointer := resolved_pointer c +
           (advance_through_layers (c.discarded_steps ∪ s)
             ((resolved_order c).drop (resolved_pointer c))).1 },
       (advance_through_layers (c.discarded_steps ∪ s)
         ((resolved_order c).drop (resolved_pointer c))).2) := by
  cases c with
  | mk graph discarded order pointer => cases order <;> rfl

/-- Unfolding of the scanning loop on a non-empty layer list. -/
theorem advance_cons (d : Finset String) (l : List String)
    (rest : List (List String)) :
    advance_through_layers d (l :: rest) =
      if (l.filter (fun e => e ∉ d)).isEmpty then
        ((advance_through_layers d rest).1 + 1,
          (advance_through_layers d rest).2)
      else (1, some (l.filter (fun e => e ∉ d))) := rfl

/-- The scan consumes at most the remaining layers. -/
theorem advance_fst_le (d : Finset String) (layers : List (List String)) :
    (advance_through_layers d layers).1 ≤ layers.length := by
  induction layers with
  | nil => simp [advance_through_layers]
  | cons l rest ih =>
    rw [advance_cons]
    by_cases hl : (l.filter (fun e => e ∉ d)).isEmpty = true
    · rw [if_pos hl]
      simpa using Nat.succ_le_succ ih
    · rw [if_neg hl]
      simp

/-- A scan that finds nothing has consumed every remaining layer. -/
theorem advance_none_fst (d : Finset String) (layers : List (List String))
    (h : (advance_through_layers d layers).2 = none) :
    (advance_through_layers d layers).1 = layers.length := by
  induction layers with
  | nil => simp [advance_through_layers]
  | cons l rest ih =>
    rw [advance_cons] at h ⊢
    by_cases hl : (l.filter (fun e => e ∉ d)).isEmpty = true
    · rw [if_pos hl] at h ⊢
      simpa using ih h
    · rw [if_neg hl] at h
      simp at h

/-- A successful scan consumed at least one layer, and returned exactly
the non-discarded part of the last layer it consumed, which is
non-empty. -/
theorem advance_some_spec (d : Finset String) (layers : List (List String))
    (r : List String) (h : (advance_through_layers d layers).2 = some r) :
    ∃ i layer, (advance_through_layers d layers).1 = i + 1 ∧
      layers[i]? = some layer ∧
      r = layer.filter (fun e => e ∉ d) ∧ r ≠ [] := by
  induction layers with
  | nil => simp [advance_through_layers] at h
  | cons l rest ih =>
    rw [advance_cons] at h ⊢
    by_cases hl : (l.filter (fun e => e ∉ d)).isEmpty = true
    · rw [if_pos hl] at h ⊢
      obtain ⟨i, layer, hfst, hget, hr, hne⟩ := ih h
      exact ⟨i + 1, layer, by rw [hfst], by simpa using hget, hr, hne⟩
    · rw [if_neg hl] at h ⊢
      obtain rfl : l.filter (fun e => e ∉ d) = r := by simpa using h
      refine ⟨0, l, rfl, by simp, rfl, ?_⟩
      intro hnil
      rw [hnil] at hl
      simp at hl

/-- Steps returned by the scan are never in the discard set. -/
theorem advance_some_not_discarded (d : Finset String)
    (layers : List (List String)) (r : List String)
    (h : (advance_through_layers d layers).2 = some r) :
    ∀ x ∈ r, x ∉ d := by
  obtain ⟨i, layer, -, -, hr, -⟩ := advance_some_spec d layers r h
  intro x hx
  rw [hr] at hx
  simpa using (List.mem_filter.mp hx).2

/-- The scan returns the non-discarded part of the first remaining layer
holding at least one non-discarded step (`none` when there is none). -/
theorem advance_eq_find (d : Finset String) (layers : List (List String)) :
    (advance_through_layers d layers).2 =
      (layers.find? (fun l => l.any (fun e => e ∉ d))).map
        (fun l => l.filter (fun e => e ∉ d)) := by
  induction layers with
  | nil => simp [advance_through_layers]
  | cons l rest ih =>
    rw [advance_cons]
    by_cases hl : (l.filter (fun e => e ∉ d)).isEmpty = true
    · have hany : (l.any fun e => e ∉ d) = false := by
        by_contra hany
        rw [Bool.not_eq_false, List.any_eq_true] at hany
        obtain ⟨x, hx, hxd⟩ := hany
        have hxf : x ∈ l.filter (fun e => e ∉ d) := List.mem_filter.mpr ⟨hx, hxd⟩
        rw [List.isEmpty_iff.mp hl] at hxf
        simp at hxf
      rw [if_pos hl]
      simp only [decide_not] at hany
      simpa [List.find?_cons, hany] using ih
    · have hne : l.filter (fun e => e ∉ d) ≠ [] := by
        intro h0
        rw [h0] at hl
        simp at hl
      obtain ⟨x, hx⟩ := List.exists_mem_of_ne_nil _ hne
      have hxm := List.mem_filter.mp hx
      have hany : (l.any fun e => e ∉ d) = true :=
        List.any_eq_true.mpr ⟨x, hxm.1, by simpa using hxm.2⟩
      rw [if_neg hl]
      simp only [decide_not] at hany
      simp [List.find?_cons, hany]

/-- C4: each call first merges the given discard names into the running
discard set; with respect to the merged set, it returns the non-discarded
part of the first remaining layer that has at least one non-discarded
step (`List.find?` skips every fully discarded layer), and it never
returns an empty list. -/
theorem claim_C4_skip_fully_discarded_layers
    (c : ParallelStepExecutionCoordinator) (steps_to_discard : Finset String) :
    (get_steps_to_execute_next c steps_to_discard).1.discarded_steps =
      c.discarded_steps ∪ steps_to_discard ∧
    (get_steps_to_execute_next c steps_to_discard).2 =
      (((resolved_order c).drop (resolved_pointer c)).find?
        (fun l => l.any (fun e => e ∉ c.discarded_steps ∪ steps_to_discard))).map
        (fun l => l.filter (fun e => e ∉ c.discarded_steps ∪ steps_to_discard)) ∧
    (get_steps_to_execute_next c steps_to_discard).2 ≠ some [] := by
  rw [get_steps_to_execute_next_eq]
  refine ⟨rfl, advance_eq_find _ _, ?_⟩
  intro hsome
  obtain ⟨i, layer, -, -, -, hne⟩ := advance_some_spec _ _ _ hsome
  exact hne rfl

/-- The state invariant threaded along a run started with `init` on graph
`g`: the graph snapshot is `g`, an uninitialized pointer is 0, and once
the layering is cached it is the layering of `g` with the pointer inside
its bounds. -/
def Aligned (g : DiGraph) (c : ParallelStepExecutionCoordinator) : Prop :=
  c.execution_graph = g ∧
  (c.execution_order = none → c.execution_pointer = 0) ∧
  (∀ o, c.execution_order = some o →
    o = establish_execution_order g ∧ c.execution_pointer ≤ o.length)

theorem aligned_init (g : DiGraph) :
    Aligned g (ParallelStepExecutionCoordinator.init g) :=
  ⟨rfl, fun _ => rfl, fun o ho => by
    simp [ParallelStepExecutionCoordinator.init] at ho⟩

theorem aligned_resolved_order (g : DiGraph)
    (c : ParallelStepExecutionCoordinator) (hc : Aligned g c) :
    resolved_order c = establish_execution_order g := by
  obtain ⟨hg, hnone, hsome⟩ := hc
  unfold resolved_order
  cases ho : c.execution_order with
  | none => rw [hg]
  | some o => exact (hsome o ho).1

theorem aligned_resolved_pointer (g : DiGraph)
    (c : ParallelStepExecutionCoordinator) (hc : Aligned g c) :
    resolved_pointer c = c.execution_pointer := by
  obtain ⟨hg, hnone, hsome⟩ := hc
  unfold resolved_pointer
  cases ho : c.execution_order with
  | none => exact (hnone ho).symm
  | some o => rfl

theorem aligned_resolved_pointer_le (g : DiGraph)
    (c : ParallelStepExecutionCoordinator) (hc : Aligned g c) :
    resolved_pointer c ≤ (establish_execution_order g).length := by
  obtain ⟨hg, hnone, hsome⟩ := hc
  unfold resolved_pointer
  cases ho : c.execution_order with
  | none => exact Nat.zero_le _
  | some o => exact (hsome o ho).1 ▸ (hsome o ho).2

/-- One call preserves the invariant. -/
theorem aligned_next (g : DiGraph) (c : ParallelStepExecutionCoordinator)
    (hc : Aligned g c) (s : Finset String) :
    Aligned g (get_steps_to_execute_next c s).1 := by
  rw [get_steps_to_execute_next_eq]
  refine ⟨hc.1, by simp, ?_⟩
  intro o ho
  simp only at ho
  obtain rfl : resolved_order c = o := by simpa using ho
  refine ⟨aligned_resolved_order g c hc, ?_⟩
  show resolved_pointer c +
      (advance_through_layers (c.discarded_steps ∪ s)
        ((resolved_order c).drop (resolved_pointer c))).1 ≤
    (resolved_order c).length
  have h1 := advance_fst_le (c.discarded_steps ∪ s)
    ((resolved_order c).drop (resolved_pointer c))
  have h2 : ((resolved_order c).drop (resolved_pointer c)).length =
      (resolved_order c).length - resolved_pointer c := by simp
  have h3 : resolved_pointer c ≤ (resolved_order c).length := by
    rw [aligned_resolved_order g c hc]
    exact aligned_resolved_pointer_le g c hc
  omega

/-- One call never moves the pointer backwards. -/
theorem next_pointer_mono (g : DiGraph) (c : ParallelStepExecutionCoordinator)
    (hc : Aligned g c) (s : Finset String) :
    c.execution_pointer ≤ (get_steps_to_execute_next c s).1.execution_pointer := by
  rw [get_steps_to_execute_next_eq]
  simp only
  rw [aligned_resolved_pointer g c hc]
  omega

/-- One call only grows the discard set. -/
theorem next_discarded_mono
    (c : ParallelStepExecutionCoordinator) (s : Finset String) :
    c.discarded_steps ⊆ (get_steps_to_execute_next c s).1.discarded_steps := by
  rw [get_steps_to_execute_next_eq]
  exact Finset.subset_union_left

/-- The coordinator state after a whole sequence of calls. -/
def run_state (c : ParallelStepExecutionCoordinator) :
    List (Finset String) → ParallelStepExecutionCoordinator
  | [] => c
  | d :: ds => run_state (get_steps_to_execute_next c d).1 ds

/-- The coordinator state seen by call `i` of a run: the state after the
first `i` calls. -/
def state_before (c : ParallelStepExecutionCoordinator)
    (args : List (Finset String)) (i : Nat) :
    ParallelStepExecutionCoordinator :=
  run_state c (args.take i)

theorem run_state_append (c : ParallelStepExecutionCoordinator)
    (l₁ l₂ : List (Finset String)) :
    run_state c (l₁ ++ l₂) = run_state (run_state c l₁) l₂ := by
  induction l₁ generalizing c with
  | nil => rfl
  | cons d ds ih => exact ih _

theorem run_state_aligned (g : DiGraph) (c : ParallelStepExecutionCoordinator)
    (hc : Aligned g c) (ds : List (Finset String)) :
    Aligned g (run_state c ds) := by
  induction ds generalizing c with
  | nil => exact hc
  | cons d ds ih => exact ih _ (aligned_next g c hc d)

theorem run_state_pointer_mono (g : DiGraph)
    (c : ParallelStepExecutionCoordinator) (hc : Aligned g c)
    (ds : List (Finset String)) :
    c.execution_pointer ≤ (run_state c ds).execution_pointer := by
  induction ds generalizing c with
  | nil => exact le_refl _
  | cons d ds ih =>
    exact le_trans (next_pointer_mono g c hc d)
      (ih _ (aligned_next g c hc d))

theorem run_state_discarded_mono (c : ParallelStepExecutionCoordinator)
    (ds : List (Finset String)) :
    c.discarded_steps ⊆ (run_state c ds).discarded_steps := by
  induction ds generalizing c with
  | nil => exact Finset.Subset.refl _
  | cons d ds ih =>
    exact Finset.Subset.trans (next_discarded_mono c d) (ih _)

theorem state_before_mono (g : DiGraph)
    (c : ParallelStepExecutionCoordinator) (hc : Aligned g c)
    (ds : List (Finset String)) (i j : Nat) (hij : i ≤ j) :
    (state_before c ds i).execution_pointer ≤
      (state_before c ds j).execution_pointer := by
  unfold state_before
  have hj : j = i + (j - i) := by omega
  rw [hj, List.take_add ds i (j - i), run_state_append]
  exact run_state_pointer_mono g _
    (run_state_aligned g c hc _) _

theorem state_before_aligned (g : DiGraph)
    (c : ParallelStepExecutionCoordinator) (hc : Aligned g c)
    (ds : List (Finset String)) (i : Nat) :
    Aligned g (state_before c ds i) :=
  run_state_aligned g c hc _

theorem trace_length (c : ParallelStepExecutionCoordinator)
    (ds : List (Finset String)) :
    (coordinator_trace c ds).length = ds.length := by
  induction ds generalizing c with
  | nil => rfl
  | cons d ds ih => simp [coordinator_trace, ih]

/-- Call `i` of a run acts on the state left by the first `i` calls. -/
theorem trace_get_eq (ds : List (Finset String))
    (c : ParallelStepExecutionCoordinator) (i : Nat) (hi : i < ds.length)
    (ht : i < (coordinator_trace c ds).length) :
    (coordinator_trace c ds)[i] =
      get_steps_to_execute_next (state_before c ds i) ds[i] := by
  induction ds generalizing c i with
  | nil => simp at hi
  | cons d ds ih =>
    cases i with
    | zero => rfl
    | succ i =>
      have hi' : i < ds.length := by simpa using hi
      have ht' : i < (coordinator_trace (get_steps_to_execute_next c d).1 ds).length := by
        rw [trace_length]; exact hi'
      show (coordinator_trace (get_steps_to_execute_next c d).1 ds)[i] = _
      rw [ih _ _ hi' ht']
      rfl

/-- The state recorded at index `i` of the trace is the state before
call `i + 1`. -/
theorem trace_get_fst (ds : List (Finset String))
    (c : ParallelStepExecutionCoordinator) (i : Nat) (hi : i < ds.length)
    (ht : i < (coordinator_trace c ds).length) :
    ((coordinator_trace c ds)[i]).1 = state_before c ds (i + 1) := by
  rw [trace_get_eq ds c i hi ht]
  unfold state_before
  rw [List.take_succ, List.getElem?_eq_getElem hi, run_state_append]
  rfl


/-- A call that returns steps bumped the pointer past the layer those
steps came from, and the returned steps are that layer filtered against
the merged discard set. -/
theorem call_some_spec (g : DiGraph) (c : ParallelStepExecutionCoordinator)
    (hc : Aligned g c) (s : Finset String) (r : List String)
    (h : (get_steps_to_execute_next c s).2 = some r) :
    ∃ idx layer,
      (get_steps_to_execute_next c s).1.execution_pointer =
        c.execution_pointer + idx + 1 ∧
      (establish_execution_order g)[c.execution_pointer + idx]? = some layer ∧
      r = layer.filter (fun e => e ∉ c.discarded_steps ∪ s) := by
  rw [get_steps_to_execute_next_eq] at h ⊢
  simp only at h ⊢
  obtain ⟨i, layer, hfst, hget, hr, hne⟩ := advance_some_spec _ _ _ h
  have horder := aligned_resolved_order g c hc
  have hpointer := aligned_resolved_pointer g c hc
  rw [List.getElem?_drop, horder, hpointer] at hget
  exact ⟨i, layer, by rw [hfst, hpointer]; omega, hget, hr⟩

/-- A call that returns the sentinel leaves the pointer at the end of the
layering. -/
theorem call_none_spec (g : DiGraph) (c : ParallelStepExecutionCoordinator)
    (hc : Aligned g c) (s : Finset String)
    (h : (get_steps_to_execute_next c s).2 = none) :
    (get_steps_to_execute_next c s).1.execution_pointer =
      (establish_execution_order g).length := by
  rw [get_steps_to_execute_next_eq] at h ⊢
  simp only at h ⊢
  rw [aligned_resolved_order g c hc] at h ⊢
  have hk := advance_none_fst _ _ h
  have hple := aligned_resolved_pointer_le g c hc
  have hlen : ((establish_execution_order g).drop (resolved_pointer c)).length =
      (establish_execution_order g).length - resolved_pointer c := by simp
  omega

/-- After any call from an aligned state, the layering is cached. -/
theorem next_order_eq (g : DiGraph) (c : ParallelStepExecutionCoordinator)
    (hc : Aligned g c) (s : Finset String) :
    (get_steps_to_execute_next c s).1.execution_order =
      some (establish_execution_order g) := by
  rw [get_steps_to_execute_next_eq]
  simp only
  rw [aligned_resolved_order g c hc]

/-- After any call from an aligned state, the pointer stays within the
layering. -/
theorem next_pointer_le (g : DiGraph) (c : ParallelStepExecutionCoordinator)
    (hc : Aligned g c) (s : Finset String) :
    (get_steps_to_execute_next c s).1.execution_pointer ≤
      (establish_execution_order g).length := by
  obtain ⟨-, -, hsome⟩ := aligned_next g c hc s
  exact (hsome _ (next_order_eq g c hc s)).2

/-- The trace of a run started from a freshly initialized coordinator. -/
def init_trace (g : DiGraph) (args : List (Finset String)) :
    List (ParallelStepExecutionCoordinator × Option (List String)) :=
  coordinator_trace (ParallelStepExecutionCoordinator.init g) args

/-- C5: along any run from `init`, the layer pointer never moves
backwards; every returned step list comes from the layer at index
pointer − 1 of the layering, filtered against the merged discard set, and
two returning calls always draw from strictly increasing layer indices
(no layer is emitted twice or revisited); once a call returns the
terminal sentinel `none`, every later call, whatever its discard
argument, returns `none` as well. -/
theorem claim_C5_forward_only_terminal_sentinel (g : DiGraph)
    (ds : List (Finset String)) :
    (∀ i j, ∀ hi : i < (init_trace g ds).length,
      ∀ hj : j < (init_trace g ds).length, i ≤ j →
      ((init_trace g ds)[i]).1.execution_pointer ≤
        ((init_trace g ds)[j]).1.execution_pointer) ∧
    (∀ i, ∀ hi : i < (init_trace g ds).length,
      ∀ r, ((init_trace g ds)[i]).2 = some r →
      1 ≤ ((init_trace g ds)[i]).1.execution_pointer ∧
      ∃ layer,
        (establish_execution_order g)[
          ((init_trace g ds)[i]).1.execution_pointer - 1]? = some layer ∧
        r = layer.filter
          (fun e => e ∉ ((init_trace g ds)[i]).1.discarded_steps)) ∧
    (∀ i j, ∀ hi : i < (init_trace g ds).length,
      ∀ hj : j < (init_trace g ds).length, i < j →
      ∀ ri rj, ((init_trace g ds)[i]).2 = some ri →
        ((init_trace g ds)[j]).2 = some rj →
      ((init_trace g ds)[i]).1.execution_pointer - 1 <
        ((init_trace g ds)[j]).1.execution_pointer - 1) ∧
    (∀ i j, ∀ hi : i < (init_trace g ds).length,
      ∀ hj : j < (init_trace g ds).length, i ≤ j →
      ((init_trace g ds)[i]).2 = none → ((init_trace g ds)[j]).2 = none) := by
  have hinit := aligned_init g
  have hlen : (init_trace g ds).length = ds.length := trace_length _ ds
  have hfst : ∀ i, ∀ hi : i < (init_trace g ds).length,
      ((init_trace g ds)[i]).1 =
        state_before (ParallelStepExecutionCoordinator.init g) ds (i + 1) :=
    fun i hi => trace_get_fst ds _ i (hlen ▸ hi) hi
  have hcall : ∀ i, ∀ hi : i < (init_trace g ds).length,
      (init_trace g ds)[i] =
        get_steps_to_execute_next
          (state_before (ParallelStepExecutionCoordinator.init g) ds i)
          (ds.get ⟨i, hlen ▸ hi⟩) :=
    fun i hi => trace_get_eq ds _ i (hlen ▸ hi) hi
  have hmono : ∀ i j, i ≤ j →
      (state_before (ParallelStepExecutionCoordinator.init g) ds i).execution_pointer ≤
        (state_before (ParallelStepExecutionCoordinator.init g) ds j).execution_pointer :=
    fun i j hij => state_before_mono g _ hinit ds i j hij
  have hsb : ∀ i,
      Aligned g (state_before (ParallelStepExecutionCoordinator.init g) ds i) :=
    fun i => state_before_aligned g _ hinit ds i
  have hB : ∀ i, ∀ hi : i < (init_trace g ds).length,
      ∀ r, ((init_trace g ds)[i]).2 = some r →
      1 ≤ ((init_trace g ds)[i]).1.execution_pointer ∧
      ∃ layer,
        (establish_execution_order g)[
          ((init_trace g ds)[i]).1.execution_pointer - 1]? = some layer ∧
        r = layer.filter
          (fun e => e ∉ ((init_trace g ds)[i]).1.discarded_steps) := by
    intro i hi r hr
    rw [hcall i hi] at hr
    obtain ⟨idx, layer, hp, hget, hval⟩ := call_some_spec g _ (hsb i) _ r hr
    have hpi : ((init_trace g ds)[i]).1.execution_pointer =
        (state_before (ParallelStepExecutionCoordinator.init g) ds i).execution_pointer
          + idx + 1 := by
      rw [hcall i hi]
      exact hp
    have hdisc : ((init_trace g ds)[i]).1.discarded_steps =
        (state_before (ParallelStepExecutionCoordinator.init g) ds i).discarded_steps
          ∪ (ds.get ⟨i, hlen ▸ hi⟩) := by
      rw [hcall i hi, get_steps_to_execute_next_eq]
    have hidx : ((init_trace g ds)[i]).1.execution_pointer - 1 =
        (state_before (ParallelStepExecutionCoordinator.init g) ds i).execution_pointer
          + idx := by
      rw [hpi]
      omega
    refine ⟨by rw [hpi]; omega, layer, ?_, ?_⟩
    · rw [hidx]
      exact hget
    · rw [hdisc]
      exact hval
  have hbump : ∀ j, ∀ hj : j < (init_trace g ds).length,
      ∀ rj, ((init_trace g ds)[j]).2 = some rj →
      (state_before (ParallelStepExecutionCoordinator.init g) ds j).execution_pointer
          + 1 ≤ ((init_trace g ds)[j]).1.execution_pointer := by
    intro j hj rj hrj
    rw [hcall j hj] at hrj
    obtain ⟨idx, layer, hp, -, -⟩ := call_some_spec g _ (hsb j) _ rj hrj
    rw [hcall j hj, hp]
    omega
  refine ⟨?_, hB, ?_, ?_⟩
  · intro i j hi hj hij
    rw [hfst i hi, hfst j hj]
    exact hmono (i + 1) (j + 1) (by omega)
  · intro i j hi hj hij ri rj hri hrj
    obtain ⟨hi1, -⟩ := hB i hi ri hri
    have hj1 := hbump j hj rj hrj
    have hij1 : ((init_trace g ds)[i]).1.execution_pointer ≤
        (state_before (ParallelStepExecutionCoordinator.init g) ds j).execution_pointer := by
      rw [hfst i hi]
      exact hmono (i + 1) j (by omega)
    omega
  · intro i j hi hj hij hnone
    rcases Nat.eq_or_lt_of_le hij with rfl | hlt2
    · exact hnone
    · cases hj2 : ((init_trace g ds)[j]).2 with
      | none => rfl
      | some rj =>
        exfalso
        have hilen : ((init_trace g ds)[i]).1.execution_pointer =
            (establish_execution_order g).length := by
          rw [hcall i hi] at hnone ⊢
          exact call_none_spec g _ (hsb i) _ hnone
        have hj1 := hbump j hj rj hj2
        have hij1 : ((init_trace g ds)[i]).1.execution_pointer ≤
            (state_before (ParallelStepExecutionCoordinator.init g) ds j).execution_pointer := by
          rw [hfst i hi]
          exact hmono (i + 1) j (by omega)
        have hjle : ((init_trace g ds)[j]).1.execution_pointer ≤
            (establish_execution_order g).length := by
          rw [hcall j hj]
          exact next_pointer_le g _ (hsb j) _
        omega

/-- The §8 scenario graph: steps A, B, C with edges A→C and B→C. -/
def example_graph : DiGraph :=
  ⟨["A", "B", "C"], [("A", "C"), ("B", "C")], fun _ => NodeCategory.STEP_NODE⟩

/-- Four calls with empty discard sets, for the scenario run. -/
def example_args : List (Finset String) := [∅, ∅, ∅, ∅]

/-- C5 witness: on the scenario graph, call 3 of a four-call run returns
the sentinel, therefore call 4 does as well. -/
theorem claim_C5_witness :
    ((init_trace example_graph example_args).get ⟨2, by decide⟩).2 = none ∧
    ((init_trace example_graph example_args).get ⟨3, by decide⟩).2 = none := by
  have h2 : 2 < (init_trace example_graph example_args).length := by decide
  have h3 : 3 < (init_trace example_graph example_args).length := by decide
  have hnone2 : ((init_trace example_graph example_args).get ⟨2, by decide⟩).2 =
      none := by decide
  exact ⟨hnone2,
    (claim_C5_forward_only_terminal_sentinel example_graph
      example_args).2.2.2 2 3 h2 h3 (by omega) hnone2⟩

theorem state_before_discarded_mono (c : ParallelStepExecutionCoordinator)
    (ds : List (Finset String)) (i j : Nat) (hij : i ≤ j) :
    (state_before c ds i).discarded_steps ⊆
      (state_before c ds j).discarded_steps := by
  unfold state_before
  have hj : j = i + (j - i) := by omega
  rw [hj, List.take_add ds i (j - i), run_state_append]
  exact run_state_discarded_mono _ _

theorem state_before_succ_discarded (c : ParallelStepExecutionCoordinator)
    (ds : List (Finset String)) (i : Nat) (hi : i < ds.length) :
    (state_before c ds (i + 1)).discarded_steps =
      (state_before c ds i).discarded_steps ∪ ds[i] := by
  unfold state_before
  rw [List.take_succ, List.getElem?_eq_getElem hi, run_state_append]
  show (get_steps_to_execute_next (run_state c (ds.take i)) ds[i]).1.discarded_steps = _
  rw [get_steps_to_execute_next_eq]

/-- C6: once a step name appears in the discard argument of call `i`,
neither call `i` nor any later call ever returns it. -/
theorem claim_C6_discard_is_monotonic (g : DiGraph)
    (ds : List (Finset String)) (name : String) (i : Nat)
    (hi : i < ds.length) (hname : name ∈ ds[i]) :
    ∀ j, ∀ hj : j < (init_trace g ds).length, i ≤ j →
    ∀ r, ((init_trace g ds)[j]).2 = some r → name ∉ r := by
  intro j hj hij r hr
  have hlen : (init_trace g ds).length = ds.length := trace_length _ ds
  have heq : (init_trace g ds)[j] =
      get_steps_to_execute_next
        (state_before (ParallelStepExecutionCoordinator.init g) ds j)
        (ds.get ⟨j, hlen ▸ hj⟩) :=
    trace_get_eq ds (ParallelStepExecutionCoordinator.init g) j (hlen ▸ hj) hj
  rw [heq, get_steps_to_execute_next_eq] at hr
  have hmem := advance_some_not_discarded _ _ _ hr
  intro hin
  apply hmem name hin
  rcases Nat.eq_or_lt_of_le hij with rfl | hlt
  · exact Finset.mem_union_right _ hname
  · apply Finset.mem_union_left
    have h1 : name ∈
        (state_before (ParallelStepExecutionCoordinator.init g) ds (i + 1)).discarded_steps := by
      rw [state_before_succ_discarded _ ds i hi]
      exact Finset.mem_union_right _ hname
    exact state_before_discarded_mono _ ds (i + 1) j (by omega) h1

/-- Discard arguments for the C6 scenario: `C` is discarded before the
first call. -/
def example_args_discard_c : List (Finset String) := [{"C"}, ∅, ∅]

/-- C6 witness: with `C` discarded at call 1 on the scenario graph, the
first call returns `[A, B]`, which indeed does not contain `C`. -/
theorem claim_C6_witness :
    (0 < example_args_discard_c.length ∧
      "C" ∈ example_args_discard_c.get ⟨0, by decide⟩) ∧
    "C" ∉ ["A", "B"] :=
  ⟨⟨by decide, by decide⟩,
    claim_C6_discard_is_monotonic example_graph example_args_discard_c "C" 0
      (by decide) (by decide) 0 (by decide) (le_refl 0) ["A", "B"] (by decide)⟩

/-- Extending the discard set with names that occur in none of the given
layers does not change the scan. -/
theorem advance_union_inert (D X : Finset String)
    (layers : List (List String))
    (hX : ∀ x ∈ X, ∀ l ∈ layers, x ∉ l) :
    advance_through_layers (D ∪ X) layers =
      advance_through_layers D layers := by
  induction layers with
  | nil => rfl
  | cons l rest ih =>
    have hfilter : l.filter (fun e => e ∉ D ∪ X) = l.filter (fun e => e ∉ D) := by
      apply List.filter_congr
      intro x hx
      have hxX : x ∉ X := fun hxX => hX x hxX l (List.mem_cons_self l rest) hx
      simp [Finset.mem_union, hxX]
    rw [advance_cons, advance_cons, hfilter,
      ih (fun x hxX l2 hl2 => hX x hxX l2 (List.mem_cons_of_mem l hl2))]

theorem resolved_order_set_discarded (c : ParallelStepExecutionCoordinator)
    (s : Finset String) :
    resolved_order { c with discarded_steps := s } = resolved_order c := rfl

theorem resolved_pointer_set_discarded (c : ParallelStepExecutionCoordinator)
    (s : Finset String) :
    resolved_pointer { c with discarded_steps := s } = resolved_pointer c := rfl

/-- One call on a state whose discard set was padded with layer-inert
names: same result, and the padding carries over unchanged. -/
theorem get_steps_augmented (g : DiGraph)
    (c : ParallelStepExecutionCoordinator) (hc : Aligned g c)
    (X d e : Finset String)
    (hX : ∀ x ∈ X ∪ e, ∀ l ∈ establish_execution_order g, x ∉ l) :
    get_steps_to_execute_next
        { c with discarded_steps := c.discarded_steps ∪ X } (d ∪ e) =
      ({ (get_steps_to_execute_next c d).1 with
          discarded_steps :=
            (get_steps_to_execute_next c d).1.discarded_steps ∪ (X ∪ e) },
        (get_steps_to_execute_next c d).2) := by
  rw [get_steps_to_execute_next_eq, get_steps_to_execute_next_eq,
    resolved_order_set_discarded, resolved_pointer_set_discarded]
  have hunion : c.discarded_steps ∪ X ∪ (d ∪ e) =
      c.discarded_steps ∪ d ∪ (X ∪ e) := by
    ext x
    simp only [Finset.mem_union]
    tauto
  have hadv : advance_through_layers (c.discarded_steps ∪ X ∪ (d ∪ e))
      ((resolved_order c).drop (resolved_pointer c)) =
    advance_through_layers (c.discarded_steps ∪ d)
      ((resolved_order c).drop (resolved_pointer c)) := by
    rw [hunion]
    apply advance_union_inert
    intro x hxX l hl
    apply hX x hxX
    rw [← aligned_resolved_order g c hc]
    exact List.mem_of_mem_drop hl
  rw [hadv, hunion]

/-- Padding the initial discard set and every call's discard argument
with layer-inert names changes no call result. -/
theorem run_inert_aux (ds : List (Finset String)) :
    ∀ (extras : List (Finset String)) (g : DiGraph)
      (c : ParallelStepExecutionCoordinator) (X : Finset String),
    Aligned g c → ds.length = extras.length →
    (∀ e ∈ extras, ∀ x ∈ e, ∀ l ∈ establish_execution_order g, x ∉ l) →
    (∀ x ∈ X, ∀ l ∈ establish_execution_order g, x ∉ l) →
    coordinator_run { c with discarded_steps := c.discarded_steps ∪ X }
        (List.zipWith (· ∪ ·) ds extras) =
      coordinator_run c ds := by
  induction ds with
  | nil =>
    intro extras g c X hc hlen hextras hX
    rfl
  | cons d ds' ih =>
    intro extras g c X hc hlen hextras hX
    cases extras with
    | nil => simp at hlen
    | cons e es' =>
      have hXe : ∀ x ∈ X ∪ e, ∀ l ∈ establish_execution_order g, x ∉ l := by
        intro x hx l hl
        rcases Finset.mem_union.mp hx with hx | hx
        · exact hX x hx l hl
        · exact hextras e (List.mem_cons_self e es') x hx l hl
      have hstep := get_steps_augmented g c hc X d e hXe
      show (get_steps_to_execute_next
          { c with discarded_steps := c.discarded_steps ∪ X } (d ∪ e)).2 ::
          coordinator_run (get_steps_to_execute_next
            { c with discarded_steps := c.discarded_steps ∪ X } (d ∪ e)).1
            (List.zipWith (· ∪ ·) ds' es') =
        (get_steps_to_execute_next c d).2 ::
          coordinator_run (get_steps_to_execute_next c d).1 ds'
      rw [hstep]
      simp only
      congr 1
      exact ih es' g (get_steps_to_execute_next c d).1 (X ∪ e)
        (aligned_next g c hc d) (by simpa using hlen)
        (fun e2 he2 => hextras e2 (List.mem_cons_of_mem e he2)) hXe

/-- C7: discard names absent from every layer are inert — padding each
call's discard argument with such names leaves every call result of the
run unchanged. -/
theorem claim_C7_unknown_discards_inert (g : DiGraph)
    (ds extras : List (Finset String)) (hlen : ds.length = extras.length)
    (hinert : ∀ e ∈ extras, ∀ x ∈ e,
      ∀ layer ∈ establish_execution_order g, x ∉ layer) :
    coordinator_run (ParallelStepExecutionCoordinator.init g)
        (List.zipWith (· ∪ ·) ds extras) =
      coordinator_run (ParallelStepExecutionCoordinator.init g) ds := by
  have h := run_inert_aux ds extras g
    (ParallelStepExecutionCoordinator.init g) ∅
    (aligned_init g) hlen hinert (by simp)
  have hempty : { ParallelStepExecutionCoordinator.init g with
      discarded_steps :=
        (ParallelStepExecutionCoordinator.init g).discarded_steps ∪ ∅ } =
      ParallelStepExecutionCoordinator.init g := by
    simp
  rw [hempty] at h
  exact h

/-- Three calls with empty discard sets. -/
def example_args_empty : List (Finset String) := [∅, ∅, ∅]

/-- Per-call padding with names that appear in no layer of the scenario
graph. -/
def example_extras : List (Finset String) := [{"zz"}, ∅, {"qq"}]

/-- C7 witness: on the scenario graph, padding the discard arguments with
the unknown names `zz` and `qq` leaves the run results unchanged. -/
theorem claim_C7_witness :
    (example_args_empty.length = example_extras.length ∧
      (∀ e ∈ example_extras, ∀ x ∈ e,
        ∀ layer ∈ establish_execution_order example_graph, x ∉ layer)) ∧
    coordinator_run (ParallelStepExecutionCoordinator.init example_graph)
        (List.zipWith (· ∪ ·) example_args_empty example_extras) =
      coordinator_run (ParallelStepExecutionCoordinator.init example_graph)
        example_args_empty :=
  ⟨⟨by decide, by decide⟩,
    claim_C7_unknown_discards_inert example_graph example_args_empty
      example_extras (by decide) (by decide)⟩

/-! ## Flow-graph construction lemmas -/

theorem add_node_edges (fg : FlowGraph) (n : String) :
    (fg.add_node n).edges = fg.edges := by
  unfold FlowGraph.add_node
  split <;> rfl

theorem mem_add_node_nodes (fg : FlowGraph) (n m : String) :
    m ∈ (fg.add_node n).nodes ↔ m ∈ fg.nodes ∨ m = n := by
  unfold FlowGraph.add_node
  split
  · rename_i h
    constructor
    · exact Or.inl
    · rintro (hm | rfl)
      · exact hm
      · exact h
  · simp

theorem add_edge_edges (fg : FlowGraph) (u v : String) :
    (fg.add_edge u v).edges =
      if (u, v) ∈ fg.edges then fg.edges else fg.edges ++ [(u, v)] := by
  unfold FlowGraph.add_edge
  simp only [add_node_edges]
  split <;> simp [add_node_edges]

theorem mem_add_edge_edges (fg : FlowGraph) (u v : String)
    (e : String × String) :
    e ∈ (fg.add_edge u v).edges ↔ e ∈ fg.edges ∨ e = (u, v) := by
  rw [add_edge_edges]
  split
  · rename_i h
    constructor
    · exact Or.inl
    · rintro (he | rfl)
      · exact he
      · exact h
  · simp

theorem add_edge_nodes (fg : FlowGraph) (u v : String) :
    (fg.add_edge u v).nodes = ((fg.add_node u).add_node v).nodes := by
  unfold FlowGraph.add_edge
  dsimp only
  split <;> rfl

theorem mem_add_edge_nodes (fg : FlowGraph) (u v : String) (m : String) :
    m ∈ (fg.add_edge u v).nodes ↔ m ∈ fg.nodes ∨ m = u ∨ m = v := by
  rw [add_edge_nodes, mem_add_node_nodes, mem_add_node_nodes]
  tauto

theorem mem_successors (g : DiGraph) (b s : String) :
    s ∈ g.successors b ↔ (b, s) ∈ g.edges := by
  unfold DiGraph.successors
  simp only [List.mem_map, List.mem_filter, decide_eq_true_eq]
  constructor
  · rintro ⟨⟨x, y⟩, ⟨hmem, rfl⟩, rfl⟩
    exact hmem
  · intro h
    exact ⟨(b, s), ⟨h, rfl⟩, rfl⟩

theorem mem_predecessors (g : DiGraph) (p b : String) :
    p ∈ g.predecessors b ↔ (p, b) ∈ g.edges := by
  unfold DiGraph.predecessors
  simp only [List.mem_map, List.mem_filter, decide_eq_true_eq]
  constructor
  · rintro ⟨⟨x, y⟩, ⟨hmem, rfl⟩, rfl⟩
    exact hmem
  · intro h
    exact ⟨(p, b), ⟨h, rfl⟩, rfl⟩

/-- Edges after the predecessor loop of `process_step_node`. -/
theorem mem_foldl_pred_edges (f : String → String) (b : String)
    (ps : List String) (fg : FlowGraph) (e : String × String) :
    e ∈ (ps.foldl (fun fg2 p => fg2.add_edge (f p) b) fg).edges ↔
      e ∈ fg.edges ∨ ∃ p ∈ ps, e = (f p, b) := by
  induction ps generalizing fg with
  | nil => simp
  | cons p ps ih =>
    rw [List.foldl_cons, ih, mem_add_edge_edges]
    constructor
    · rintro ((he | rfl) | ⟨q, hq, rfl⟩)
      · exact Or.inl he
      · exact Or.inr ⟨p, List.mem_cons_self p ps, rfl⟩
      · exact Or.inr ⟨q, List.mem_cons_of_mem p hq, rfl⟩
    · rintro (he | ⟨q, hq, rfl⟩)
      · exact Or.inl (Or.inl he)
      · rcases List.mem_cons.mp hq with rfl | hq
        · exact Or.inl (Or.inr rfl)
        · exact Or.inr ⟨q, hq, rfl⟩

/-- Edges after the successor loop of `process_step_node`. -/
theorem mem_foldl_succ_edges (b : String) (step_nodes : List String)
    (ss : List String) (fg : FlowGraph) (e : String × String) :
    e ∈ (ss.foldl
        (fun fg2 s => if s ∈ step_nodes then fg2.add_edge b s else fg2)
        fg).edges ↔
      e ∈ fg.edges ∨ ∃ s ∈ ss, s ∈ step_nodes ∧ e = (b, s) := by
  induction ss generalizing fg with
  | nil => simp
  | cons s ss ih =>
    rw [List.foldl_cons]
    by_cases hs : s ∈ step_nodes
    · rw [if_pos hs, ih, mem_add_edge_edges]
      constructor
      · rintro ((he | rfl) | ⟨q, hq, hqs, rfl⟩)
        · exact Or.inl he
        · exact Or.inr ⟨s, List.mem_cons_self s ss, hs, rfl⟩
        · exact Or.inr ⟨q, List.mem_cons_of_mem s hq, hqs, rfl⟩
      · rintro (he | ⟨q, hq, hqs, rfl⟩)
        · exact Or.inl (Or.inl he)
        · rcases List.mem_cons.mp hq with rfl | hq
          · exact Or.inl (Or.inr rfl)
          · exact Or.inr ⟨q, hq, hqs, rfl⟩
    · rw [if_neg hs, ih]
      constructor
      · rintro (he | ⟨q, hq, hqs, rfl⟩)
        · exact Or.inl he
        · exact Or.inr ⟨q, List.mem_cons_of_mem s hq, hqs, rfl⟩
      · rintro (he | ⟨q, hq, hqs, rfl⟩)
        · exact Or.inl he
        · rcases List.mem_cons.mp hq with rfl | hq
          · exact absurd hqs hs
          · exact Or.inr ⟨q, hq, hqs, rfl⟩

/-- The edges one `process_step_node` call contributes for step node
`b`. -/
def step_node_edges (g : DiGraph) (step_nodes : List String)
    (super_start_node : String) (b : String) (e : String × String) : Prop :=
  (∃ p ∈ g.predecessors b,
    e = ((if p ∈ step_nodes then p else super_start_node), b)) ∨
  (g.predecessors b = [] ∧ e = (super_start_node, b)) ∨
  (∃ s ∈ g.successors b, s ∈ step_nodes ∧ e = (b, s))

theorem mem_process_step_node_edges (g : DiGraph)
    (step_nodes : List String) (start : String) (fg : FlowGraph)
    (b : String) (e : String × String) :
    e ∈ (process_step_node g step_nodes start fg b).edges ↔
      e ∈ fg.edges ∨ step_node_edges g step_nodes start b e := by
  unfold process_step_node step_node_edges
  by_cases hp : (g.predecessors b).isEmpty
  · have hnil : g.predecessors b = [] := List.isEmpty_iff.mp hp
    rw [mem_foldl_succ_edges, if_pos hp, mem_add_edge_edges,
      mem_foldl_pred_edges, hnil]
    constructor
    · rintro (((he | ⟨p, hp2, -⟩) | rfl) | h)
      · exact Or.inl he
      · simp at hp2
      · exact Or.inr (Or.inr (Or.inl ⟨rfl, rfl⟩))
      · exact Or.inr (Or.inr (Or.inr h))
    · rintro (he | (⟨p, hp2, -⟩ | (⟨-, rfl⟩ | h)))
      · exact Or.inl (Or.inl (Or.inl he))
      · simp at hp2
      · exact Or.inl (Or.inr rfl)
      · exact Or.inr h
  · rw [mem_foldl_succ_edges, if_neg hp, mem_foldl_pred_edges]
    have hnonnil : g.predecessors b ≠ [] := by
      intro h0
      rw [h0] at hp
      simp at hp
    constructor
    · rintro ((he | h) | h)
      · exact Or.inl he
      · exact Or.inr (Or.inl h)
      · exact Or.inr (Or.inr (Or.inr h))
    · rintro (he | (h | (⟨hnil2, -⟩ | h)))
      · exact Or.inl (Or.inl he)
      · exact Or.inl (Or.inr h)
      · exact absurd hnil2 hnonnil
      · exact Or.inr h

theorem mem_foldl_process_edges (g : DiGraph) (step_nodes : List String)
    (start : String) (bs : List String) (fg : FlowGraph)
    (e : String × String) :
    e ∈ (bs.foldl (process_step_node g step_nodes start) fg).edges ↔
      e ∈ fg.edges ∨ ∃ b ∈ bs, step_node_edges g step_nodes start b e := by
  induction bs generalizing fg with
  | nil => simp
  | cons b bs ih =>
    rw [List.foldl_cons, ih, mem_process_step_node_edges]
    constructor
    · rintro ((he | h) | ⟨q, hq, hqe⟩)
      · exact Or.inl he
      · exact Or.inr ⟨b, List.mem_cons_self b bs, h⟩
      · exact Or.inr ⟨q, List.mem_cons_of_mem b hq, hqe⟩
    · rintro (he | ⟨q, hq, hqe⟩)
      · exact Or.inl (Or.inl he)
      · rcases List.mem_cons.mp hq with rfl | hq
        · exact Or.inl (Or.inr hqe)
        · exact Or.inr ⟨q, hq, hqe⟩

/-- Membership in the edges of the constructed steps-flow graph. -/
theorem mem_construct_edges (g : DiGraph) (start : String)
    (e : String × String) :
    e ∈ (construct_steps_flow_graph g start).edges ↔
      ∃ b ∈ g.step_nodes, step_node_edges g g.step_nodes start b e := by
  unfold construct_steps_flow_graph
  rw [mem_foldl_process_edges]
  simp [add_node_edges]

/-- The edge set claimed by the spec for the steps-flow graph: for every
Step node `v` and every direct predecessor `p` of `v`, an edge from `p`
when `p` is a Step node and from the synthetic source otherwise; plus an
edge from the synthetic source to every Step node without any
predecessor. -/
def flow_edge_spec (g : DiGraph) (super_start_node : String)
    (u v : String) : Prop :=
  v ∈ g.step_nodes ∧
  ((∃ p ∈ g.predecessors v,
      u = if p ∈ g.step_nodes then p else super_start_node) ∨
    (g.predecessors v = [] ∧ u = super_start_node))

/-- C3: the steps-flow graph has exactly the edges described by the spec:
per Step node, one edge per direct predecessor (the predecessor itself if
it is a Step node, else the synthetic source), plus a synthetic-source
edge for a Step node with no predecessors at all. In particular the
successor loop of `construct_steps_flow_graph` adds no edge the
predecessor loops do not. -/
theorem claim_C3_steps_flow_graph_edges (g : DiGraph) (start : String)
    (u v : String) :
    (u, v) ∈ (construct_steps_flow_graph g start).edges ↔
      flow_edge_spec g start u v := by
  rw [mem_construct_edges]
  unfold flow_edge_spec step_node_edges
  constructor
  · rintro ⟨b, hb, (⟨p, hp, he⟩ | (⟨hnil, he⟩ | ⟨s, hs, hsteps, he⟩))⟩
    · obtain ⟨rfl, rfl⟩ : u = (if p ∈ g.step_nodes then p else start) ∧ v = b := by
        simpa [Prod.ext_iff] using he
      exact ⟨hb, Or.inl ⟨p, hp, rfl⟩⟩
    · obtain ⟨rfl, rfl⟩ : u = start ∧ v = b := by
        simpa [Prod.ext_iff] using he
      exact ⟨hb, Or.inr ⟨hnil, rfl⟩⟩
    · obtain ⟨rfl, rfl⟩ : u = b ∧ v = s := by
        simpa [Prod.ext_iff] using he
      refine ⟨hsteps, Or.inl ⟨u, ?_, ?_⟩⟩
      · rw [mem_predecessors]
        rw [mem_successors] at hs
        exact hs
      · rw [if_pos hb]
  · rintro ⟨hv, (⟨p, hp, rfl⟩ | ⟨hnil, rfl⟩)⟩
    · exact ⟨v, hv, Or.inl ⟨p, hp, rfl⟩⟩
    · exact ⟨v, hv, Or.inr (Or.inl ⟨hnil, rfl⟩)⟩

/-! ## Arithmetic and sorting helpers -/

theorem acc_le_foldl_max (l : List Nat) (a : Nat) : a ≤ l.foldl max a := by
  induction l generalizing a with
  | nil => exact le_refl a
  | cons x xs ih => exact le_trans (Nat.le_max_left a x) (ih (max a x))

theorem le_foldl_max (l : List Nat) (a : Nat) (x : Nat) (hx : x ∈ l) :
    x ≤ l.foldl max a := by
  induction l generalizing a with
  | nil => simp at hx
  | cons y ys ih =>
    rcases List.mem_cons.mp hx with rfl | hx
    · exact le_trans (Nat.le_max_right a x) (acc_le_foldl_max ys (max a x))
    · exact ih (max a y) hx

theorem foldl_max_le (l : List Nat) (a m : Nat) (ha : a ≤ m)
    (h : ∀ x ∈ l, x ≤ m) : l.foldl max a ≤ m := by
  induction l generalizing a with
  | nil => exact ha
  | cons y ys ih =>
    exact ih (max a y) (max_le ha (h y (List.mem_cons_self y ys)))
      (fun x hx => h x (List.mem_cons_of_mem y hx))

theorem foldl_max_acc_or_mem (l : List Nat) (a : Nat) :
    l.foldl max a = a ∨ l.foldl max a ∈ l := by
  induction l generalizing a with
  | nil => exact Or.inl rfl
  | cons y ys ih =>
    rcases ih (max a y) with h | h
    · rcases max_choice a y with hm | hm
      · exact Or.inl (by rw [List.foldl_cons, h, hm])
      · exact Or.inr (by rw [List.foldl_cons, h, hm]; exact List.mem_cons_self y ys)
    · exact Or.inr (List.mem_cons_of_mem y h)

/-- The maximum of a non-empty list of naturals is attained. -/
theorem foldl_max_attained (l : List Nat) (hne : l ≠ []) :
    ∃ x ∈ l, l.foldl max 0 = x := by
  rcases foldl_max_acc_or_mem l 0 with h | h
  · cases l with
    | nil => exact absurd rfl hne
    | cons y ys =>
      refine ⟨y, List.mem_cons_self y ys, ?_⟩
      have hy := le_foldl_max (y :: ys) 0 y (List.mem_cons_self y ys)
      omega
  · exact ⟨_, h, rfl⟩

theorem mem_insert_sorted (v x : Nat) (l : List Nat) :
    x ∈ insert_sorted v l ↔ x = v ∨ x ∈ l := by
  induction l with
  | nil => simp [insert_sorted]
  | cons y ys ih =>
    unfold insert_sorted
    by_cases h : v ≤ y
    · rw [if_pos h]
      simp
    · rw [if_neg h]
      simp only [List.mem_cons, ih]
      tauto

theorem insert_sorted_perm (v : Nat) (l : List Nat) :
    List.Perm (insert_sorted v l) (v :: l) := by
  induction l with
  | nil => exact List.Perm.refl _
  | cons y ys ih =>
    unfold insert_sorted
    by_cases h : v ≤ y
    · rw [if_pos h]
    · rw [if_neg h]
      exact List.Perm.trans (List.Perm.cons y ih) (List.Perm.swap v y ys)

theorem insert_sorted_sorted (v : Nat) (l : List Nat)
    (hl : l.Sorted (· ≤ ·)) : (insert_sorted v l).Sorted (· ≤ ·) := by
  induction l with
  | nil => simp [insert_sorted]
  | cons y ys ih =>
    unfold insert_sorted
    have hy : ∀ z ∈ ys, y ≤ z := fun z hz => (List.sorted_cons.mp hl).1 z hz
    have hys : ys.Sorted (· ≤ ·) := (List.sorted_cons.mp hl).2
    by_cases h : v ≤ y
    · rw [if_pos h]
      exact List.sorted_cons.mpr ⟨fun z hz => by
        rcases List.mem_cons.mp hz with rfl | hz
        · exact h
        · exact le_trans h (hy z hz), hl⟩
    · rw [if_neg h]
      refine List.sorted_cons.mpr ⟨?_, ih hys⟩
      intro z hz
      rcases (mem_insert_sorted v z ys).mp hz with rfl | hz
      · omega
      · exact hy z hz

theorem sort_ascending_perm (l : List Nat) :
    List.Perm (sort_ascending l) l := by
  induction l with
  | nil => exact List.Perm.refl _
  | cons y ys ih =>
    exact List.Perm.trans (insert_sorted_perm y (sort_ascending ys))
      (List.Perm.cons y ih)

theorem sort_ascending_sorted (l : List Nat) :
    (sort_ascending l).Sorted (· ≤ ·) := by
  induction l with
  | nil => simp [sort_ascending]
  | cons y ys ih => exact insert_sorted_sorted y (sort_ascending ys) ih

theorem mem_sort_ascending (l : List Nat) (x : Nat) :
    x ∈ sort_ascending l ↔ x ∈ l :=
  (sort_ascending_perm l).mem_iff

/-! ## Nodes of the constructed flow graph -/

theorem mem_foldl_pred_nodes (f : String → String) (b : String)
    (ps : List String) (fg : FlowGraph) (m : String) :
    m ∈ (ps.foldl (fun fg2 p => fg2.add_edge (f p) b) fg).nodes ↔
      m ∈ fg.nodes ∨ ∃ p ∈ ps, m = f p ∨ m = b := by
  induction ps generalizing fg with
  | nil => simp
  | cons p ps ih =>
    rw [List.foldl_cons, ih, mem_add_edge_nodes]
    constructor
    · rintro ((hm | hm | hm) | ⟨q, hq, hqm⟩)
      · exact Or.inl hm
      · exact Or.inr ⟨p, List.mem_cons_self p ps, Or.inl hm⟩
      · exact Or.inr ⟨p, List.mem_cons_self p ps, Or.inr hm⟩
      · exact Or.inr ⟨q, List.mem_cons_of_mem p hq, hqm⟩
    · rintro (hm | ⟨q, hq, hqm⟩)
      · exact Or.inl (Or.inl hm)
      · rcases List.mem_cons.mp hq with rfl | hq
        · rcases hqm with hqm | hqm
          · exact Or.inl (Or.inr (Or.inl hqm))
          · exact Or.inl (Or.inr (Or.inr hqm))
        · exact Or.inr ⟨q, hq, hqm⟩

theorem mem_foldl_succ_nodes (b : String) (step_nodes : List String)
    (ss : List String) (fg : FlowGraph) (m : String) :
    m ∈ (ss.foldl
        (fun fg2 s => if s ∈ step_nodes then fg2.add_edge b s else fg2)
        fg).nodes ↔
      m ∈ fg.nodes ∨ ∃ s ∈ ss, s ∈ step_nodes ∧ (m = b ∨ m = s) := by
  induction ss generalizing fg with
  | nil => simp
  | cons s ss ih =>
    rw [List.foldl_cons]
    by_cases hs : s ∈ step_nodes
    · rw [if_pos hs, ih, mem_add_edge_nodes]
      constructor
      · rintro ((hm | hm | hm) | ⟨q, hq, hqs, hqm⟩)
        · exact Or.inl hm
        · exact Or.inr ⟨s, List.mem_cons_self s ss, hs, Or.inl hm⟩
        · exact Or.inr ⟨s, List.mem_cons_self s ss, hs, Or.inr hm⟩
        · exact Or.inr ⟨q, List.mem_cons_of_mem s hq, hqs, hqm⟩
      · rintro (hm | ⟨q, hq, hqs, hqm⟩)
        · exact Or.inl (Or.inl hm)
        · rcases List.mem_cons.mp hq with rfl | hq
          · rcases hqm with hqm | hqm
            · exact Or.inl (Or.inr (Or.inl hqm))
            · exact Or.inl (Or.inr (Or.inr hqm))
          · exact Or.inr ⟨q, hq, hqs, hqm⟩
    · rw [if_neg hs, ih]
      constructor
      · rintro (hm | ⟨q, hq, hqs, hqm⟩)
        · exact Or.inl hm
        · exact Or.inr ⟨q, List.mem_cons_of_mem s hq, hqs, hqm⟩
      · rintro (hm | ⟨q, hq, hqs, hqm⟩)
        · exact Or.inl hm
        · rcases List.mem_cons.mp hq with rfl | hq
          · exact absurd hqs hs
          · exact Or.inr ⟨q, hq, hqs, hqm⟩

/-- The nodes one `process_step_node` call contributes for step node
`b`. -/
def step_node_nodes (g : DiGraph) (step_nodes : List String)
    (super_start_node : String) (b m : String) : Prop :=
  (∃ p ∈ g.predecessors b,
    m = (if p ∈ step_nodes then p else super_start_node) ∨ m = b) ∨
  (g.predecessors b = [] ∧ (m = super_start_node ∨ m = b)) ∨
  (∃ s ∈ g.successors b, s ∈ step_nodes ∧ (m = b ∨ m = s))

theorem mem_process_step_node_nodes (g : DiGraph)
    (step_nodes : List String) (start : String) (fg : FlowGraph)
    (b m : String) :
    m ∈ (process_step_node g step_nodes start fg b).nodes ↔
      m ∈ fg.nodes ∨ step_node_nodes g step_nodes start b m := by
  unfold process_step_node step_node_nodes
  by_cases hp : (g.predecessors b).isEmpty
  · have hnil : g.predecessors b = [] := List.isEmpty_iff.mp hp
    rw [mem_foldl_succ_nodes, if_pos hp, mem_add_edge_nodes,
      mem_foldl_pred_nodes, hnil]
    constructor
    · rintro (((hm | ⟨p, hp2, -⟩) | hm | hm) | h)
      · exact Or.inl hm
      · simp at hp2
      · exact Or.inr (Or.inr (Or.inl ⟨rfl, Or.inl hm⟩))
      · exact Or.inr (Or.inr (Or.inl ⟨rfl, Or.inr hm⟩))
      · exact Or.inr (Or.inr (Or.inr h))
    · rintro (hm | (⟨p, hp2, -⟩ | (⟨-, (hm | hm)⟩ | h)))
      · exact Or.inl (Or.inl (Or.inl hm))
      · simp at hp2
      · exact Or.inl (Or.inr (Or.inl hm))
      · exact Or.inl (Or.inr (Or.inr hm))
      · exact Or.inr h
  · rw [mem_foldl_succ_nodes, if_neg hp, mem_foldl_pred_nodes]
    have hnonnil : g.predecessors b ≠ [] := by
      intro h0
      rw [h0] at hp
      simp at hp
    constructor
    · rintro ((hm | h) | h)
      · exact Or.inl hm
      · exact Or.inr (Or.inl h)
      · exact Or.inr (Or.inr (Or.inr h))
    · rintro (hm | (h | (⟨hnil2, -⟩ | h)))
      · exact Or.inl (Or.inl hm)
      · exact Or.inl (Or.inr h)
      · exact absurd hnil2 hnonnil
      · exact Or.inr h

theorem mem_foldl_process_nodes (g : DiGraph) (step_nodes : List String)
    (start : String) (bs : List String) (fg : FlowGraph) (m : String) :
    m ∈ (bs.foldl (process_step_node g step_nodes start) fg).nodes ↔
      m ∈ fg.nodes ∨ ∃ b ∈ bs, step_node_nodes g step_nodes start b m := by
  induction bs generalizing fg with
  | nil => simp
  | cons b bs ih =>
    rw [List.foldl_cons, ih, mem_process_step_node_nodes]
    constructor
    · rintro ((hm | h) | ⟨q, hq, hqm⟩)
      · exact Or.inl hm
      · exact Or.inr ⟨b, List.mem_cons_self b bs, h⟩
      · exact Or.inr ⟨q, List.mem_cons_of_mem b hq, hqm⟩
    · rintro (hm | ⟨q, hq, hqm⟩)
      · exact Or.inl (Or.inl hm)
      · rcases List.mem_cons.mp hq with rfl | hq
        · exact Or.inl (Or.inr hqm)
        · exact Or.inr ⟨q, hq, hqm⟩

/-- Membership in the nodes of the constructed steps-flow graph: exactly
the synthetic source and the step nodes. -/
theorem mem_construct_nodes (g : DiGraph) (start : String) (m : String) :
    m ∈ (construct_steps_flow_graph g start).nodes ↔
      m = start ∨ m ∈ g.step_nodes := by
  unfold construct_steps_flow_graph
  rw [mem_foldl_process_nodes]
  have hinit : m ∈ (FlowGraph.add_node ⟨[], []⟩ start).nodes ↔ m = start := by
    rw [mem_add_node_nodes]
    simp
  rw [hinit]
  constructor
  · rintro (rfl | ⟨b, hb, hmem⟩)
    · exact Or.inl rfl
    · unfold step_node_nodes at hmem
      rcases hmem with ⟨p, hp, (hm | rfl)⟩ | ⟨-, (rfl | rfl)⟩ | ⟨s, hs, hsteps, (rfl | rfl)⟩
      · by_cases hps : p ∈ g.step_nodes
        · rw [if_pos hps] at hm
          exact Or.inr (hm ▸ hps)
        · rw [if_neg hps] at hm
          exact Or.inl hm
      · exact Or.inr hb
      · exact Or.inl rfl
      · exact Or.inr hb
      · exact Or.inr hb
      · exact Or.inr hsteps
  · rintro (rfl | hm)
    · exact Or.inl rfl
    · refine Or.inr ⟨m, hm, ?_⟩
      unfold step_node_nodes
      by_cases hp : g.predecessors m = []
      · exact Or.inr (Or.inl ⟨hp, Or.inr rfl⟩)
      · obtain ⟨p, hpmem⟩ := List.exists_mem_of_ne_nil _ hp
        exact Or.inl ⟨p, hpmem, Or.inr rfl⟩

/-! ## Flow predecessors and acyclicity -/

theorem mem_flow_predecessors (fg : FlowGraph) (p n : String) :
    p ∈ fg.flow_predecessors n ↔ (p, n) ∈ fg.edges := by
  unfold FlowGraph.flow_predecessors
  simp only [List.mem_map, List.mem_filter, decide_eq_true_eq]
  constructor
  · rintro ⟨⟨x, y⟩, ⟨hmem, rfl⟩, rfl⟩
    exact hmem
  · intro h
    exact ⟨(p, n), ⟨h, rfl⟩, rfl⟩

/-- Every edge of the steps-flow graph ends in a step node. -/
theorem construct_edge_target_step (g : DiGraph) (start : String)
    (u v : String) (h : (u, v) ∈ (construct_steps_flow_graph g start).edges) :
    v ∈ g.step_nodes := by
  rw [mem_construct_edges] at h
  obtain ⟨b, hb, hmem⟩ := h
  unfold step_node_edges at hmem
  rcases hmem with ⟨p, hp, he⟩ | ⟨-, he⟩ | ⟨s, hs, hsteps, he⟩
  · obtain ⟨-, rfl⟩ : u = (if p ∈ g.step_nodes then p else start) ∧ v = b := by
      simpa [Prod.ext_iff] using he
    exact hb
  · obtain ⟨-, rfl⟩ : u = start ∧ v = b := by
      simpa [Prod.ext_iff] using he
    exact hb
  · obtain ⟨-, rfl⟩ : u = b ∧ v = s := by
      simpa [Prod.ext_iff] using he
    exact hsteps

/-- Every edge of the steps-flow graph starts at the synthetic source or
at a step node with a matching execution-graph edge. -/
theorem construct_edge_source_spec (g : DiGraph) (start : String)
    (u v : String) (h : (u, v) ∈ (construct_steps_flow_graph g start).edges) :
    u = start ∨ (u ∈ g.step_nodes ∧ (u, v) ∈ g.edges) := by
  rw [mem_construct_edges] at h
  obtain ⟨b, hb, hmem⟩ := h
  unfold step_node_edges at hmem
  rcases hmem with ⟨p, hp, he⟩ | ⟨-, he⟩ | ⟨s, hs, hsteps, he⟩
  · obtain ⟨rfl, rfl⟩ : u = (if p ∈ g.step_nodes then p else start) ∧ v = b := by
      simpa [Prod.ext_iff] using he
    by_cases hps : p ∈ g.step_nodes
    · rw [if_pos hps]
      exact Or.inr ⟨hps, (mem_predecessors g p v).mp hp⟩
    · rw [if_neg hps]
      exact Or.inl rfl
  · obtain ⟨rfl, -⟩ : u = start ∧ v = b := by
      simpa [Prod.ext_iff] using he
    exact Or.inl rfl
  · obtain ⟨rfl, rfl⟩ : u = b ∧ v = s := by
      simpa [Prod.ext_iff] using he
    exact Or.inr ⟨hb, (mem_successors g u v).mp hs⟩

/-- Every step-to-step execution edge is an edge of the steps-flow
graph. -/
theorem construct_edge_of_step_edge (g : DiGraph) (start : String)
    (a b : String) (ha : a ∈ g.step_nodes) (hb : b ∈ g.step_nodes)
    (hab : (a, b) ∈ g.edges) :
    (a, b) ∈ (construct_steps_flow_graph g start).edges := by
  rw [mem_construct_edges]
  refine ⟨b, hb, Or.inl ⟨a, (mem_predecessors g a b).mpr hab, ?_⟩⟩
  rw [if_pos ha]

/-- Every edge endpoint of the constructed graph is one of its nodes. -/
theorem construct_edge_mem_nodes (g : DiGraph) (start : String)
    (u v : String) (h : (u, v) ∈ (construct_steps_flow_graph g start).edges) :
    u ∈ (construct_steps_flow_graph g start).nodes ∧
      v ∈ (construct_steps_flow_graph g start).nodes := by
  constructor
  · rw [mem_construct_nodes]
    rcases construct_edge_source_spec g start u v h with rfl | ⟨hu, -⟩
    · exact Or.inl rfl
    · exact Or.inr hu
  · rw [mem_construct_nodes]
    exact Or.inr (construct_edge_target_step g start u v h)

/-- Acyclicity of a graph, witnessed by a topological ranking of the
nodes: every edge strictly increases the rank. For a finite graph this is
the standard equivalent of having no directed cycle. -/
def DiGraph.IsAcyclic (g : DiGraph) : Prop :=
  ∃ rank : String → Nat, ∀ e ∈ g.edges, rank e.1 < rank e.2

/-- An acyclic execution graph without a step named like the synthetic
source yields an acyclic steps-flow graph. -/
theorem construct_acyclic (g : DiGraph) (hacyc : g.IsAcyclic)
    (hcol : super_start_node ∉ g.step_nodes) :
    ∃ rank : String → Nat,
      ∀ e ∈ (construct_steps_flow_graph g super_start_node).edges,
        rank e.1 < rank e.2 := by
  obtain ⟨rank, hrank⟩ := hacyc
  refine ⟨fun n => if n = super_start_node then 0 else rank n + 1, ?_⟩
  rintro ⟨u, v⟩ he
  have hv : v ∈ g.step_nodes :=
    construct_edge_target_step g super_start_node u v he
  have hvne : v ≠ super_start_node := fun hveq => hcol (hveq ▸ hv)
  simp only
  rw [if_neg hvne]
  rcases construct_edge_source_spec g super_start_node u v he with rfl | ⟨hu, hedge⟩
  · rw [if_pos rfl]
    omega
  · have hune : u ≠ super_start_node := fun hueq => hcol (hueq ▸ hu)
    rw [if_neg hune]
    have h2 : rank u < rank v := hrank (u, v) hedge
    omega

/-! ## The longest-path distance recurrence -/

/-- Rank of a node normalized to the number of strictly lower-ranked
graph nodes; bounded by the node count. -/
def rank_norm (fg : FlowGraph) (rk : String → Nat) (n : String) : Nat :=
  (fg.nodes.filter (fun m => rk m < rk n)).length

theorem rank_norm_edge_lt (fg : FlowGraph) (rk : String → Nat)
    (hrk : ∀ e ∈ fg.edges, rk e.1 < rk e.2)
    (hwf : ∀ e ∈ fg.edges, e.1 ∈ fg.nodes ∧ e.2 ∈ fg.nodes)
    (u v : String) (h : (u, v) ∈ fg.edges) :
    rank_norm fg rk u < rank_norm fg rk v := by
  have huv : rk u < rk v := hrk (u, v) h
  have hsub : List.Sublist (fg.nodes.filter (fun m => rk m < rk u))
      (fg.nodes.filter (fun m => rk m < rk v)) := by
    apply List.monotone_filter_right
    intro a ha
    simp only [decide_eq_true_eq] at ha ⊢
    omega
  have hle := hsub.length_le
  rcases Nat.lt_or_ge (rank_norm fg rk u) (rank_norm fg rk v) with hlt | hge
  · exact hlt
  · exfalso
    have heq : (fg.nodes.filter (fun m => rk m < rk u)).length =
        (fg.nodes.filter (fun m => rk m < rk v)).length := by
      unfold rank_norm at hge
      omega
    have hlists := hsub.eq_of_length heq
    have hu_in : u ∈ fg.nodes.filter (fun m => rk m < rk v) :=
      List.mem_filter.mpr ⟨(hwf (u, v) h).1, by simpa using huv⟩
    rw [← hlists] at hu_in
    have := (List.mem_filter.mp hu_in).2
    simp at this

theorem rank_norm_lt_length (fg : FlowGraph) (rk : String → Nat)
    (n : String) (hn : n ∈ fg.nodes) :
    rank_norm fg rk n < fg.nodes.length := by
  have hsub : List.Sublist (fg.nodes.filter (fun m => rk m < rk n)) fg.nodes :=
    List.filter_sublist fg.nodes
  have hle := hsub.length_le
  rcases Nat.lt_or_ge (rank_norm fg rk n) fg.nodes.length with hlt | hge
  · exact hlt
  · exfalso
    have heq : (fg.nodes.filter (fun m => rk m < rk n)).length =
        fg.nodes.length := by
      unfold rank_norm at hge
      omega
    have hlists := hsub.eq_of_length heq
    rw [← hlists] at hn
    have := (List.mem_filter.mp hn).2
    simp at this

theorem max_distance_no_preds (fg : FlowGraph) (n : String) (k : Nat)
    (h : fg.flow_predecessors n = []) :
    max_distance_from_start fg k n = 0 := by
  cases k with
  | zero => rfl
  | succ k =>
    unfold max_distance_from_start
    rw [h]
    rfl

theorem max_distance_succ (fg : FlowGraph) (n : String) (k : Nat) :
    max_distance_from_start fg (k + 1) n =
      if (fg.flow_predecessors n).isEmpty then 0
      else ((fg.flow_predecessors n).map
        (max_distance_from_start fg k)).foldl max 0 + 1 := rfl

/-- On an acyclic graph the fuel-indexed distance is stable once the fuel
reaches the normalized rank of the node. -/
theorem max_distance_stable (fg : FlowGraph) (rk : String → Nat)
    (hrk : ∀ e ∈ fg.edges, rk e.1 < rk e.2)
    (hwf : ∀ e ∈ fg.edges, e.1 ∈ fg.nodes ∧ e.2 ∈ fg.nodes) :
    ∀ R n k₁ k₂, rank_norm fg rk n ≤ R → rank_norm fg rk n ≤ k₁ →
      rank_norm fg rk n ≤ k₂ →
      max_distance_from_start fg k₁ n = max_distance_from_start fg k₂ n := by
  intro R
  induction R with
  | zero =>
    intro n k₁ k₂ hR h1 h2
    by_cases hp : fg.flow_predecessors n = []
    · rw [max_distance_no_preds fg n k₁ hp, max_distance_no_preds fg n k₂ hp]
    · exfalso
      obtain ⟨p, hpmem⟩ := List.exists_mem_of_ne_nil _ hp
      have hedge := (mem_flow_predecessors fg p n).mp hpmem
      have := rank_norm_edge_lt fg rk hrk hwf p n hedge
      omega
  | succ R ih =>
    intro n k₁ k₂ hR h1 h2
    by_cases hp : fg.flow_predecessors n = []
    · rw [max_distance_no_preds fg n k₁ hp, max_distance_no_preds fg n k₂ hp]
    · have hpos : ∀ p ∈ fg.flow_predecessors n,
          rank_norm fg rk p < rank_norm fg rk n := by
        intro p hpmem
        exact rank_norm_edge_lt fg rk hrk hwf p n
          ((mem_flow_predecessors fg p n).mp hpmem)
      obtain ⟨p0, hp0⟩ := List.exists_mem_of_ne_nil _ hp
      have h1p : 1 ≤ rank_norm fg rk n := by
        have := hpos p0 hp0
        omega
      cases k₁ with
      | zero => omega
      | succ k₁ =>
        cases k₂ with
        | zero => omega
        | succ k₂ =>
          rw [max_distance_succ, max_distance_succ]
          have hne : ¬ (fg.flow_predecessors n).isEmpty = true := by
            simp [hp]
          rw [if_neg hne, if_neg hne]
          have hmap : (fg.flow_predecessors n).map
              (max_distance_from_start fg k₁) =
            (fg.flow_predecessors n).map (max_distance_from_start fg k₂) := by
            apply List.map_congr_left
            intro p hpmem
            have hplt := hpos p hpmem
            exact ih p k₁ k₂ (by omega) (by omega) (by omega)
          rw [hmap]

/-- The modelled `assign_max_distances_from_start` satisfies the spec's
recurrence on an acyclic graph whose edges stay within its nodes: the
distance of a node without incoming edges is 0, and otherwise 1 + the
maximum distance over the edge sources. -/
theorem assign_max_distances_recurrence (fg : FlowGraph)
    (rk : String → Nat) (hrk : ∀ e ∈ fg.edges, rk e.1 < rk e.2)
    (hwf : ∀ e ∈ fg.edges, e.1 ∈ fg.nodes ∧ e.2 ∈ fg.nodes) (n : String) :
    assign_max_distances_from_start fg n =
      if (fg.flow_predecessors n).isEmpty then 0
      else ((fg.flow_predecessors n).map
        (assign_max_distances_from_start fg)).foldl max 0 + 1 := by
  by_cases hp : fg.flow_predecessors n = []
  · rw [if_pos (by simp [hp])]
    exact max_distance_no_preds fg n _ hp
  · obtain ⟨p0, hp0⟩ := List.exists_mem_of_ne_nil _ hp
    have hn : n ∈ fg.nodes :=
      (hwf (p0, n) ((mem_flow_predecessors fg p0 n).mp hp0)).2
    have hnorm := rank_norm_lt_length fg rk n hn
    have hstable := max_distance_stable fg rk hrk hwf (rank_norm fg rk n) n
      fg.nodes.length (fg.nodes.length + 1) (le_refl _) (by omega) (by omega)
    unfold assign_max_distances_from_start
    rw [hstable, max_distance_succ]

/-! ## Distances on the constructed steps-flow graph -/

/-- The steps-flow graph of an execution graph, rooted at the reserved
synthetic source. -/
def steps_flow (g : DiGraph) : FlowGraph :=
  construct_steps_flow_graph g super_start_node

/-- The longest-path distance used by `establish_execution_order`. -/
def layer_distance (g : DiGraph) : String → Nat :=
  assign_max_distances_from_start (steps_flow g)

theorem establish_execution_order_eq (g : DiGraph) :
    establish_execution_order g =
      group_nodes_by_sorted_key_value (steps_flow g).nodes
        [super_start_node] (layer_distance g) := rfl

/-- A direct step-to-step dependency in the execution graph. -/
def step_edge (g : DiGraph) (a b : String) : Prop :=
  a ∈ g.step_nodes ∧ b ∈ g.step_nodes ∧ (a, b) ∈ g.edges

/-- A step-ancestor: a step reaching `b` through a chain of direct
step-to-step dependencies. -/
def step_ancestor (g : DiGraph) : String → String → Prop :=
  Relation.TransGen (step_edge g)

theorem steps_flow_wf (g : DiGraph) :
    ∀ e ∈ (steps_flow g).edges,
      e.1 ∈ (steps_flow g).nodes ∧ e.2 ∈ (steps_flow g).nodes :=
  fun e he => construct_edge_mem_nodes g super_start_node e.1 e.2 he

theorem start_no_flow_preds (g : DiGraph)
    (hcol : super_start_node ∉ g.step_nodes) :
    (steps_flow g).flow_predecessors super_start_node = [] := by
  rw [List.eq_nil_iff_forall_not_mem]
  intro p hp
  have hedge := (mem_flow_predecessors _ p super_start_node).mp hp
  exact hcol (construct_edge_target_step g super_start_node p
    super_start_node hedge)

theorem layer_distance_start (g : DiGraph)
    (hcol : super_start_node ∉ g.step_nodes) :
    layer_distance g super_start_node = 0 :=
  max_distance_no_preds _ _ _ (start_no_flow_preds g hcol)

theorem step_flow_preds_ne_nil (g : DiGraph) (b : String)
    (hb : b ∈ g.step_nodes) :
    (steps_flow g).flow_predecessors b ≠ [] := by
  by_cases hp : g.predecessors b = []
  · intro h0
    have hedge : (super_start_node, b) ∈ (steps_flow g).edges := by
      unfold steps_flow
      rw [mem_construct_edges]
      exact ⟨b, hb, Or.inr (Or.inl ⟨hp, rfl⟩)⟩
    have := (mem_flow_predecessors _ super_start_node b).mpr hedge
    rw [h0] at this
    simp at this
  · obtain ⟨p, hpmem⟩ := List.exists_mem_of_ne_nil _ hp
    intro h0
    have hedge : ((if p ∈ g.step_nodes then p else super_start_node), b) ∈
        (steps_flow g).edges := by
      unfold steps_flow
      rw [mem_construct_edges]
      exact ⟨b, hb, Or.inl ⟨p, hpmem, rfl⟩⟩
    have := (mem_flow_predecessors _ _ b).mpr hedge
    rw [h0] at this
    simp at this

theorem layer_distance_recurrence (g : DiGraph) (hacyc : g.IsAcyclic)
    (hcol : super_start_node ∉ g.step_nodes) (n : String) :
    layer_distance g n =
      if ((steps_flow g).flow_predecessors n).isEmpty then 0
      else (((steps_flow g).flow_predecessors n).map
        (layer_distance g)).foldl max 0 + 1 := by
  obtain ⟨rk, hrk⟩ := construct_acyclic g hacyc hcol
  exact assign_max_distances_recurrence (steps_flow g) rk hrk
    (steps_flow_wf g) n

theorem layer_distance_step_pos (g : DiGraph) (hacyc : g.IsAcyclic)
    (hcol : super_start_node ∉ g.step_nodes) (b : String)
    (hb : b ∈ g.step_nodes) : 1 ≤ layer_distance g b := by
  rw [layer_distance_recurrence g hacyc hcol b,
    if_neg (by simp [step_flow_preds_ne_nil g b hb])]
  omega

theorem layer_distance_flow_edge_lt (g : DiGraph) (hacyc : g.IsAcyclic)
    (hcol : super_start_node ∉ g.step_nodes) (u v : String)
    (h : (u, v) ∈ (steps_flow g).edges) :
    layer_distance g u < layer_distance g v := by
  have hu : u ∈ (steps_flow g).flow_predecessors v :=
    (mem_flow_predecessors _ u v).mpr h
  have hne : (steps_flow g).flow_predecessors v ≠ [] := by
    intro h0
    rw [h0] at hu
    simp at hu
  rw [layer_distance_recurrence g hacyc hcol v, if_neg (by simp [hne])]
  have hle : layer_distance g u ≤
      (((steps_flow g).flow_predecessors v).map (layer_distance g)).foldl
        max 0 :=
    le_foldl_max _ 0 _ (List.mem_map_of_mem _ hu)
  omega

theorem layer_distance_step_edge_lt (g : DiGraph) (hacyc : g.IsAcyclic)
    (hcol : super_start_node ∉ g.step_nodes) (a b : String)
    (h : step_edge g a b) : layer_distance g a < layer_distance g b := by
  obtain ⟨ha, hb, hab⟩ := h
  exact layer_distance_flow_edge_lt g hacyc hcol a b
    (construct_edge_of_step_edge g super_start_node a b ha hb hab)

theorem layer_distance_ancestor_lt (g : DiGraph) (hacyc : g.IsAcyclic)
    (hcol : super_start_node ∉ g.step_nodes) (a b : String)
    (h : step_ancestor g a b) : layer_distance g a < layer_distance g b := by
  induction h with
  | single h1 => exact layer_distance_step_edge_lt g hacyc hcol _ _ h1
  | tail h1 h2 ih =>
    exact lt_trans ih (layer_distance_step_edge_lt g hacyc hcol _ _ h2)

/-- A flow predecessor of a node is the synthetic source or a step with
a matching execution edge. -/
theorem flow_pred_cases (g : DiGraph) (p b : String)
    (hp : p ∈ (steps_flow g).flow_predecessors b) :
    p = super_start_node ∨ (p ∈ g.step_nodes ∧ (p, b) ∈ g.edges) :=
  construct_edge_source_spec g super_start_node p b
    ((mem_flow_predecessors _ p b).mp hp)

/-- A step with no step-ancestor sits at distance exactly 1. -/
theorem layer_distance_no_ancestor (g : DiGraph) (hacyc : g.IsAcyclic)
    (hcol : super_start_node ∉ g.step_nodes) (b : String)
    (hb : b ∈ g.step_nodes) (hanc : ¬ ∃ a, step_ancestor g a b) :
    layer_distance g b = 1 := by
  have hallstart : ∀ p ∈ (steps_flow g).flow_predecessors b,
      p = super_start_node := by
    intro p hp
    rcases flow_pred_cases g p b hp with rfl | ⟨hps, hpe⟩
    · rfl
    · exact absurd ⟨p, Relation.TransGen.single ⟨hps, hb, hpe⟩⟩ hanc
  have hne := step_flow_preds_ne_nil g b hb
  rw [layer_distance_recurrence g hacyc hcol b, if_neg (by simp [hne])]
  have hzero : (((steps_flow g).flow_predecessors b).map
      (layer_distance g)).foldl max 0 = 0 := by
    have hle : (((steps_flow g).flow_predecessors b).map
        (layer_distance g)).foldl max 0 ≤ 0 := by
      apply foldl_max_le _ 0 0 (le_refl 0)
      intro x hx
      obtain ⟨p, hpmem, rfl⟩ := List.mem_map.mp hx
      rw [hallstart p hpmem, layer_distance_start g hcol]
    omega
  rw [hzero]

/-- A step at distance at least 2 has a step-ancestor exactly one
distance unit below it. -/
theorem layer_distance_attained (g : DiGraph) (hacyc : g.IsAcyclic)
    (hcol : super_start_node ∉ g.step_nodes) (b : String)
    (hb : b ∈ g.step_nodes) (h2 : 2 ≤ layer_distance g b) :
    ∃ p, step_edge g p b ∧ layer_distance g p = layer_distance g b - 1 := by
  have hne := step_flow_preds_ne_nil g b hb
  have hrec := layer_distance_recurrence g hacyc hcol b
  rw [if_neg (by simp [hne])] at hrec
  have hmapne : ((steps_flow g).flow_predecessors b).map (layer_distance g)
      ≠ [] := by
    simp [hne]
  obtain ⟨x, hx, hfold⟩ := foldl_max_attained _ hmapne
  obtain ⟨p, hpmem, rfl⟩ := List.mem_map.mp hx
  have hdist : layer_distance g p = layer_distance g b - 1 := by omega
  have hp1 : 1 ≤ layer_distance g p := by omega
  rcases flow_pred_cases g p b hpmem with rfl | ⟨hps, hpe⟩
  · rw [layer_distance_start g hcol] at hp1
    omega
  · exact ⟨p, ⟨hps, hb, hpe⟩, hdist⟩

/-! ## The node list of the flow graph has no duplicates -/

theorem add_node_nodup (fg : FlowGraph) (n : String)
    (h : fg.nodes.Nodup) : (fg.add_node n).nodes.Nodup := by
  unfold FlowGraph.add_node
  split
  · exact h
  · rename_i hmem
    rw [List.nodup_append]
    refine ⟨h, List.nodup_singleton n, ?_⟩
    intro a ha hb
    rw [List.mem_singleton] at hb
    exact hmem (hb ▸ ha)

theorem add_edge_nodup (fg : FlowGraph) (u v : String)
    (h : fg.nodes.Nodup) : (fg.add_edge u v).nodes.Nodup := by
  rw [add_edge_nodes]
  exact add_node_nodup _ v (add_node_nodup _ u h)

theorem foldl_pred_nodup (f : String → String) (b : String)
    (ps : List String) (fg : FlowGraph) (h : fg.nodes.Nodup) :
    (ps.foldl (fun fg2 p => fg2.add_edge (f p) b) fg).nodes.Nodup := by
  induction ps generalizing fg with
  | nil => exact h
  | cons p ps ih => exact ih _ (add_edge_nodup _ _ _ h)

theorem foldl_succ_nodup (b : String) (step_nodes : List String)
    (ss : List String) (fg : FlowGraph) (h : fg.nodes.Nodup) :
    (ss.foldl
      (fun fg2 s => if s ∈ step_nodes then fg2.add_edge b s else fg2)
      fg).nodes.Nodup := by
  induction ss generalizing fg with
  | nil => exact h
  | cons s ss ih =>
    rw [List.foldl_cons]
    by_cases hs : s ∈ step_nodes
    · rw [if_pos hs]
      exact ih _ (add_edge_nodup _ _ _ h)
    · rw [if_neg hs]
      exact ih _ h

theorem process_step_node_nodup (g : DiGraph) (step_nodes : List String)
    (start : String) (fg : FlowGraph) (b : String)
    (h : fg.nodes.Nodup) :
    (process_step_node g step_nodes start fg b).nodes.Nodup := by
  unfold process_step_node
  apply foldl_succ_nodup
  by_cases hp : (g.predecessors b).isEmpty
  · rw [if_pos hp]
    exact add_edge_nodup _ _ _ (foldl_pred_nodup _ _ _ _ h)
  · rw [if_neg hp]
    exact foldl_pred_nodup _ _ _ _ h

theorem foldl_process_nodup (g : DiGraph) (step_nodes : List String)
    (start : String) (bs : List String) (fg : FlowGraph)
    (h : fg.nodes.Nodup) :
    (bs.foldl (process_step_node g step_nodes start) fg).nodes.Nodup := by
  induction bs generalizing fg with
  | nil => exact h
  | cons b bs ih =>
    exact ih _ (process_step_node_nodup _ _ _ _ _ h)

theorem construct_nodes_nodup (g : DiGraph) (start : String) :
    (construct_steps_flow_graph g start).nodes.Nodup := by
  unfold construct_steps_flow_graph
  exact foldl_process_nodup g g.step_nodes start g.step_nodes _
    (add_node_nodup _ _ List.nodup_nil)

/-! ## Layer values -/

/-- The nodes grouped into layers: the flow-graph nodes minus the
synthetic source. -/
def included_nodes (g : DiGraph) : List String :=
  (steps_flow g).nodes.filter (fun n => n ∉ [super_start_node])

/-- The ascending distinct distance values of the grouped nodes. -/
def layer_values (g : DiGraph) : List Nat :=
  sort_ascending ((included_nodes g).map (layer_distance g)).dedup

theorem establish_eq_map_layer_values (g : DiGraph) :
    establish_execution_order g =
      (layer_values g).map
        (fun v => (included_nodes g).filter
          (fun n => layer_distance g n = v)) := rfl

theorem mem_included_nodes (g : DiGraph)
    (hcol : super_start_node ∉ g.step_nodes) (n : String) :
    n ∈ included_nodes g ↔ n ∈ g.step_nodes := by
  unfold included_nodes
  rw [List.mem_filter]
  constructor
  · rintro ⟨hnodes, hne⟩
    have := (mem_construct_nodes g super_start_node n).mp hnodes
    rcases this with rfl | hsteps
    · simp at hne
    · exact hsteps
  · intro hsteps
    refine ⟨(mem_construct_nodes g super_start_node n).mpr (Or.inr hsteps), ?_⟩
    have : n ≠ super_start_node := fun hne => hcol (hne ▸ hsteps)
    simp [this]

theorem included_nodes_nodup (g : DiGraph) :
    (included_nodes g).Nodup :=
  List.Nodup.filter _ (construct_nodes_nodup g super_start_node)

theorem layer_values_nodup (g : DiGraph) : (layer_values g).Nodup :=
  ((sort_ascending_perm _).nodup_iff).mpr
    (List.nodup_dedup _)

theorem layer_values_sorted (g : DiGraph) :
    (layer_values g).Sorted (· < ·) :=
  (sort_ascending_sorted _).lt_of_le (layer_values_nodup g)

theorem mem_layer_values (g : DiGraph) (v : Nat) :
    v ∈ layer_values g ↔
      ∃ n ∈ included_nodes g, layer_distance g n = v := by
  unfold layer_values
  rw [mem_sort_ascending, List.mem_dedup, List.mem_map]

theorem layer_values_pos (g : DiGraph) (hacyc : g.IsAcyclic)
    (hcol : super_start_node ∉ g.step_nodes) (v : Nat)
    (hv : v ∈ layer_values g) : 1 ≤ v := by
  obtain ⟨n, hn, rfl⟩ := (mem_layer_values g v).mp hv
  exact layer_distance_step_pos g hacyc hcol n
    ((mem_included_nodes g hcol n).mp hn)

theorem layer_values_down_closed (g : DiGraph) (hacyc : g.IsAcyclic)
    (hcol : super_start_node ∉ g.step_nodes) (v : Nat)
    (hv : v ∈ layer_values g) (h2 : 2 ≤ v) : v - 1 ∈ layer_values g := by
  obtain ⟨b, hb, rfl⟩ := (mem_layer_values g _).mp hv
  obtain ⟨p, hedge, hdist⟩ := layer_distance_attained g hacyc hcol b
    ((mem_included_nodes g hcol b).mp hb) h2
  refine (mem_layer_values g _).mpr ⟨p, ?_, hdist⟩
  exact (mem_included_nodes g hcol p).mpr hedge.1

/-- A strictly ascending list of naturals that are all at least 1 and
closed under predecessor (down to 1) is exactly `1, 2, 3, …`. -/
theorem sorted_contiguous_get (l : List Nat) (hs : l.Sorted (· < ·))
    (h1 : ∀ v ∈ l, 1 ≤ v) (hdown : ∀ v ∈ l, 2 ≤ v → v - 1 ∈ l) :
    ∀ i, ∀ hi : i < l.length, l.get ⟨i, hi⟩ = i + 1 := by
  have hmono : ∀ i j (hi : i < l.length) (hj : j < l.length), i ≤ j →
      l.get ⟨i, hi⟩ ≤ l.get ⟨j, hj⟩ := by
    intro i j hi hj hij
    rcases Nat.eq_or_lt_of_le hij with rfl | hlt
    · exact le_refl _
    · exact le_of_lt (List.Sorted.rel_get_of_lt hs hlt)
  intro i
  induction i with
  | zero =>
    intro hi
    have hv1 : 1 ≤ l.get ⟨0, hi⟩ := h1 _ (List.get_mem l _ _)
    by_contra hne
    have hv2 : 2 ≤ l.get ⟨0, hi⟩ := by omega
    have hvm : l.get ⟨0, hi⟩ - 1 ∈ l := hdown _ (List.get_mem l _ _) hv2
    obtain ⟨⟨j, hj⟩, hjget⟩ := List.mem_iff_get.mp hvm
    have hle := hmono 0 j hi hj (Nat.zero_le j)
    omega
  | succ i ih =>
    intro hi
    have hiprev : i < l.length := Nat.lt_of_succ_lt hi
    have hprev : l.get ⟨i, hiprev⟩ = i + 1 := ih hiprev
    have hstrict : l.get ⟨i, hiprev⟩ < l.get ⟨i + 1, hi⟩ :=
      List.Sorted.rel_get_of_lt hs (by exact Nat.lt_succ_self i)
    have hlow : i + 2 ≤ l.get ⟨i + 1, hi⟩ := by omega
    by_contra hne
    have hv3 : i + 3 ≤ l.get ⟨i + 1, hi⟩ := by omega
    have hvm : l.get ⟨i + 1, hi⟩ - 1 ∈ l :=
      hdown _ (List.get_mem l _ _) (by omega)
    obtain ⟨⟨j, hj⟩, hjget⟩ := List.mem_iff_get.mp hvm
    rcases Nat.lt_trichotomy j (i + 1) with hji | hji | hji
    · have hle := hmono j i hj hiprev (by omega)
      omega
    · have heq2 : l.get ⟨j, hj⟩ = l.get ⟨i + 1, hi⟩ := by
        congr 1
        exact Fin.ext hji
      omega
    · have hgt := List.Sorted.rel_get_of_lt hs
        (show (⟨i + 1, hi⟩ : Fin l.length) < ⟨j, hj⟩ from hji)
      omega

/-- The sequence of distinct layer distances of an acyclic graph is
`1, 2, 3, …`. -/
theorem layer_values_get (g : DiGraph) (hacyc : g.IsAcyclic)
    (hcol : super_start_node ∉ g.step_nodes) :
    ∀ i, ∀ hi : i < (layer_values g).length,
      (layer_values g).get ⟨i, hi⟩ = i + 1 :=
  sorted_contiguous_get (layer_values g) (layer_values_sorted g)
    (layer_values_pos g hacyc hcol)
    (layer_values_down_closed g hacyc hcol)

/-- Membership in layer `i`: exactly the grouped nodes at distance
`i + 1`. -/
theorem mem_layers_iff (g : DiGraph) (hacyc : g.IsAcyclic)
    (hcol : super_start_node ∉ g.step_nodes) (i : Nat)
    (hi : i < (establish_execution_order g).length) (b : String) :
    b ∈ (establish_execution_order g).get ⟨i, hi⟩ ↔
      b ∈ g.step_nodes ∧ layer_distance g b = i + 1 := by
  have hlen : (establish_execution_order g).length =
      (layer_values g).length := by
    rw [establish_eq_map_layer_values]
    exact List.length_map _ _
  have hget : (establish_execution_order g).get ⟨i, hi⟩ =
      (included_nodes g).filter
        (fun n => layer_distance g n =
          (layer_values g).get ⟨i, hlen ▸ hi⟩) := by
    show ((layer_values g).map
        (fun v => (included_nodes g).filter
          (fun n => layer_distance g n = v))).get ⟨i, hi⟩ = _
    simp [List.get_eq_getElem, List.getElem_map]
  rw [hget, layer_values_get g hacyc hcol i (hlen ▸ hi), List.mem_filter]
  rw [mem_included_nodes g hcol]
  simp

theorem layers_get_nodup (g : DiGraph) (i : Nat)
    (hi : i < (establish_execution_order g).length) :
    ((establish_execution_order g).get ⟨i, hi⟩).Nodup := by
  have hget : (establish_execution_order g).get ⟨i, hi⟩ =
      (included_nodes g).filter
        (fun n => layer_distance g n =
          (layer_values g).get ⟨i, by
            rw [establish_eq_map_layer_values, List.length_map] at hi
            exact hi⟩) := by
    show ((layer_values g).map
        (fun v => (included_nodes g).filter
          (fun n => layer_distance g n = v))).get ⟨i, hi⟩ = _
    simp [List.get_eq_getElem, List.getElem_map]
  rw [hget]
  exact List.Nodup.filter _ (included_nodes_nodup g)

/-- C1: for an acyclic execution graph, the layering places every step
node in exactly one layer, with no duplicate inside a layer and nothing
but step nodes in the layers; the layer index of a step without any
step-ancestor is 0 (longest-path distance 1 from the synthetic source);
every step-ancestor sits in a strictly lower layer; and a step with
step-ancestors sits exactly one layer above some step-ancestor — so its
layer index is 1 + the maximum layer index over its step-ancestors,
never merely a minimum-satisfying value. -/
theorem claim_C1_layering_is_longest_path_partition (g : DiGraph)
    (hacyc : g.IsAcyclic) (hcol : super_start_node ∉ g.step_nodes) :
    (∀ b ∈ g.step_nodes,
      ∃ i, ∃ hi : i < (establish_execution_order g).length,
        b ∈ (establish_execution_order g).get ⟨i, hi⟩) ∧
    (∀ b i j, ∀ hi : i < (establish_execution_order g).length,
      ∀ hj : j < (establish_execution_order g).length,
      b ∈ (establish_execution_order g).get ⟨i, hi⟩ →
      b ∈ (establish_execution_order g).get ⟨j, hj⟩ → i = j) ∧
    (∀ i, ∀ hi : i < (establish_execution_order g).length,
      ((establish_execution_order g).get ⟨i, hi⟩).Nodup) ∧
    (∀ i, ∀ hi : i < (establish_execution_order g).length,
      ∀ b ∈ (establish_execution_order g).get ⟨i, hi⟩, b ∈ g.step_nodes) ∧
    (∀ b i, ∀ hi : i < (establish_execution_order g).length,
      b ∈ (establish_execution_order g).get ⟨i, hi⟩ →
      ¬ (∃ a, step_ancestor g a b) → i = 0) ∧
    (∀ b i, ∀ hi : i < (establish_execution_order g).length,
      b ∈ (establish_execution_order g).get ⟨i, hi⟩ →
      ∀ a, step_ancestor g a b →
      ∀ j, ∀ hj : j < (establish_execution_order g).length,
        a ∈ (establish_execution_order g).get ⟨j, hj⟩ → j < i) ∧
    (∀ b i, ∀ hi : i < (establish_execution_order g).length,
      b ∈ (establish_execution_order g).get ⟨i, hi⟩ →
      (∃ a, step_ancestor g a b) →
      ∃ a j, step_ancestor g a b ∧
        ∃ hj : j < (establish_execution_order g).length,
          a ∈ (establish_execution_order g).get ⟨j, hj⟩ ∧ i = j + 1) := by
  have hlen : (establish_execution_order g).length =
      (layer_values g).length := by
    rw [establish_eq_map_layer_values]
    exact List.length_map _ _
  refine ⟨?_, ?_, ?_, ?_, ?_, ?_, ?_⟩
  · intro b hb
    have hmem : layer_distance g b ∈ layer_values g :=
      (mem_layer_values g _).mpr
        ⟨b, (mem_included_nodes g hcol b).mpr hb, rfl⟩
    obtain ⟨⟨k, hk⟩, hkget⟩ := List.mem_iff_get.mp hmem
    have hkval : (layer_values g).get ⟨k, hk⟩ = k + 1 :=
      layer_values_get g hacyc hcol k hk
    refine ⟨k, hlen ▸ hk, ?_⟩
    rw [mem_layers_iff g hacyc hcol k (hlen ▸ hk) b]
    exact ⟨hb, by omega⟩
  · intro b i j hi hj hbi hbj
    obtain ⟨-, hdi⟩ := (mem_layers_iff g hacyc hcol i hi b).mp hbi
    obtain ⟨-, hdj⟩ := (mem_layers_iff g hacyc hcol j hj b).mp hbj
    omega
  · exact fun i hi => layers_get_nodup g i hi
  · intro i hi b hb
    exact ((mem_layers_iff g hacyc hcol i hi b).mp hb).1
  · intro b i hi hb hanc
    obtain ⟨hbs, hdi⟩ := (mem_layers_iff g hacyc hcol i hi b).mp hb
    have := layer_distance_no_ancestor g hacyc hcol b hbs hanc
    omega
  · intro b i hi hb a hanc j hj ha
    obtain ⟨-, hdi⟩ := (mem_layers_iff g hacyc hcol i hi b).mp hb
    obtain ⟨-, hdj⟩ := (mem_layers_iff g hacyc hcol j hj a).mp ha
    have := layer_distance_ancestor_lt g hacyc hcol a b hanc
    omega
  · intro b i hi hb hex
    obtain ⟨hbs, hdi⟩ := (mem_layers_iff g hacyc hcol i hi b).mp hb
    obtain ⟨a0, hanc⟩ := hex
    have hdirect : ∃ c, step_edge g c b := by
      cases hanc with
      | single h => exact ⟨a0, h⟩
      | tail h1 h2 => exact ⟨_, h2⟩
    obtain ⟨c, hc⟩ := hdirect
    have hc1 : 1 ≤ layer_distance g c :=
      layer_distance_step_pos g hacyc hcol c hc.1
    have hclt : layer_distance g c < layer_distance g b :=
      layer_distance_step_edge_lt g hacyc hcol c b hc
    have hb2 : 2 ≤ layer_distance g b := by omega
    obtain ⟨p, hpedge, hpdist⟩ :=
      layer_distance_attained g hacyc hcol b hbs hb2
    have hi1 : 1 ≤ i := by omega
    have hjlt : i - 1 < (establish_execution_order g).length := by omega
    refine ⟨p, i - 1, Relation.TransGen.single hpedge, hjlt, ?_, by omega⟩
    rw [mem_layers_iff g hacyc hcol (i - 1) hjlt p]
    exact ⟨hpedge.1, by omega⟩

/-- C2: for an acyclic execution graph, every step-to-step dependency
edge crosses from a strictly lower layer to a strictly higher one. -/
theorem claim_C2_step_edge_increases_layer (g : DiGraph)
    (hacyc : g.IsAcyclic) (hcol : super_start_node ∉ g.step_nodes)
    (a b : String) (ha : a ∈ g.step_nodes) (hb : b ∈ g.step_nodes)
    (hab : (a, b) ∈ g.edges) (i j : Nat)
    (hi : i < (establish_execution_order g).length)
    (hj : j < (establish_execution_order g).length)
    (hia : a ∈ (establish_execution_order g).get ⟨i, hi⟩)
    (hjb : b ∈ (establish_execution_order g).get ⟨j, hj⟩) : i < j := by
  obtain ⟨-, hda⟩ := (mem_layers_iff g hacyc hcol i hi a).mp hia
  obtain ⟨-, hdb⟩ := (mem_layers_iff g hacyc hcol j hj b).mp hjb
  have := layer_distance_step_edge_lt g hacyc hcol a b ⟨ha, hb, hab⟩
  omega

/-- A topological ranking of the scenario graph. -/
def example_rank : String → Nat := fun n => if n = "C" then 1 else 0

/-- C1 witness: the scenario graph is acyclic and collision-free, and the
layering places step `C` in some layer. -/
theorem claim_C1_witness :
    (example_graph.IsAcyclic ∧
      super_start_node ∉ example_graph.step_nodes) ∧
    (∃ i, ∃ hi : i < (establish_execution_order example_graph).length,
      "C" ∈ (establish_execution_order example_graph).get ⟨i, hi⟩) :=
  ⟨⟨⟨example_rank, by decide⟩, by decide⟩,
    (claim_C1_layering_is_longest_path_partition example_graph
      ⟨example_rank, by decide⟩ (by decide)).1 "C" (by decide)⟩

/-- C2 witness: on the scenario graph the step edge A→C goes from layer
0 to layer 1. -/
theorem claim_C2_witness :
    ("A", "C") ∈ example_graph.edges ∧ (0 : Nat) < 1 :=
  ⟨by decide,
    claim_C2_step_edge_increases_layer example_graph
      ⟨example_rank, by decide⟩ (by decide) "A" "C" (by decide) (by decide)
      (by decide) 0 1 (by decide) (by decide) (by decide) (by decide)⟩
